import Mathlib

/-! # kubectl-tekton-imagebuild: status classification, age formatting, projection

A shallow embedding of `pkg/pipelinerun/lister.go`:

* `getStatus`  (lister.go 134-174): the label derived from a run's conditions;
* `getAge`     (lister.go 176-194): the single-unit age string;
* `extractPipelineRunInfo` (lister.go 109-132): the projection to report rows.

Go strings are Lean strings.  `corev1.ConditionStatus` and
`apis.ConditionType` are named string types in their libraries, so both are
strings here.  A `time.Time` is an integer count of nanoseconds and a
`time.Duration` is an integer count of nanoseconds in the int64 range; the
clock that `time.Since` reads is an argument.  `getAge` works on the float64
results of `Duration.Hours`, `Duration.Minutes` and `Duration.Seconds`; these
are modelled exactly: a float64 value is a fraction, and every float64
operation is the exact operation followed by one rounding to nearest, ties to
even, at 53 significant bits.

The file has the definitions first and then the proofs: `getStatus`,
`extractPipelineRunInfo`, the float64 rounding, and `getAge` (where its
branches switch, where it agrees with the integer rule of the specification,
its values at concrete durations, and its monotonicity within a unit).
-/

namespace Lister

/-! ## Data model -/

/-- `apis.Condition` (knative.dev/pkg/apis): the fields `Type`, `Status`,
`Reason` and `Message`; `getStatus` reads the first three. -/
structure Condition where
  Type_ : String
  Status : String
  Reason : String := ""
  Message : String := ""
deriving DecidableEq, Repr

/-- `corev1.ConditionTrue`. -/
def ConditionTrue : String := "True"

/-- `corev1.ConditionFalse`. -/
def ConditionFalse : String := "False"

/-- `corev1.ConditionUnknown`. -/
def ConditionUnknown : String := "Unknown"

/-- An instant (`time.Time`, `metav1.Time`), in nanoseconds. -/
abbrev Time := Int

/-- `pipelinev1.PipelineRef`: the referenced pipeline's name. -/
structure PipelineRef where
  Name : String
deriving DecidableEq, Repr

/-- `pipelinev1.PipelineRunSpec`: `PipelineRef` is a pointer, nil is `none`. -/
structure PipelineRunSpec where
  PipelineRef : Option PipelineRef := none
deriving DecidableEq, Repr

/-- `pipelinev1.PipelineRunStatus` with its embedded `duckv1.Status` and
`PipelineRunStatusFields`: the condition list and the two nullable times. -/
structure PipelineRunStatus where
  Conditions : List Condition := []
  StartTime : Option Time := none
  CompletionTime : Option Time := none
deriving DecidableEq, Repr

/-- A Go `map[string]string`: `none` is the nil map, `some kvs` a map holding
the listed bindings (the first binding of a key is the one looked up). -/
abbrev StringMap := Option (List (String × String))

/-- A map index expression `m[k]`: the value stored under `k`, the zero value
`""` when `k` is absent or the map is nil. -/
def StringMap.index (m : StringMap) (k : String) : String :=
  match m with
  | none => ""
  | some kvs =>
    match kvs.lookup k with
    | some v => v
    | none => ""

/-- `pipelinev1.PipelineRun`, with the promoted `ObjectMeta` fields. -/
structure PipelineRun where
  Name : String := ""
  Namespace : String := ""
  Labels : StringMap := none
  CreationTimestamp : Time := 0
  Spec : PipelineRunSpec := {}
  Status : PipelineRunStatus := {}
deriving DecidableEq, Repr

/-- `PipelineRunInfo` (lister.go 34-44). -/
structure PipelineRunInfo where
  Name : String := ""
  Namespace : String := ""
  Status : String := ""
  ScheduleValue : String := ""
  Age : String := ""
  StartTime : Option Time := none
  CompletionTime : Option Time := none
  Labels : StringMap := none
  Pipeline : String := ""
deriving DecidableEq, Repr

/-! ## getStatus -/

/-- The search loop of `getStatus` (lister.go 141-147): the first condition
whose type is `"Succeeded"`, `none` when the loop ends with the pointer nil. -/
def findSucceeded : List Condition → Option Condition
  | [] => none
  | c :: rest => if c.Type_ = "Succeeded" then some c else findSucceeded rest

/-- `Lister.getStatus` (lister.go 134-174). -/
def getStatus (pr : PipelineRun) : String :=
  let conditions := pr.Status.Conditions
  if conditions.length = 0 then "Unknown"
  else
    match findSucceeded conditions with
    | none => "Unknown"
    | some condition =>
      if condition.Status = ConditionTrue then "Succeeded"
      else if condition.Status = ConditionFalse then
        let reason := condition.Reason
        if reason = "Failed" then "Failed"
        else if reason = "Cancelled" then "Cancelled"
        else if reason = "PipelineRunTimeout" then "Timeout"
        else "Failed (" ++ reason ++ ")"
      else if condition.Status = ConditionUnknown then
        if condition.Reason = "Running" then "Running"
        else "Pending"
      else "Unknown"


/-! ## float64 arithmetic

A finite float64 value is held exactly, as a fraction.  Every float64
operation computes the exact result and rounds it once, to nearest with ties
to even, at 53 significant bits (or at the fixed spacing `2^-1074` in the
subnormal range).  Overflow to infinity is not modelled: every value computed
from an int64 duration lies below `2^64` in magnitude. -/

/-- An exact fraction `num / den`; `den` is positive in every value built below. -/
structure Frac where
  num : Int
  den : Nat
deriving DecidableEq, Repr

/-- Halving loop for `floorLog2`. -/
def log2Fuel : Nat → Nat → Nat
  | 0, _ => 0
  | fuel + 1, n => if n < 2 then 0 else log2Fuel fuel (n / 2) + 1

/-- The position of the highest set bit of `n` (0 for `n = 0`). -/
def floorLog2 (n : Nat) : Nat := log2Fuel n n

/-- The binary exponent `e` of the positive fraction `a / q`:
`2^e ≤ a / q < 2^(e+1)`. -/
def binade (a q : Nat) : Int :=
  let k : Int := (floorLog2 a : Int) - (floorLog2 q : Int)
  if q * 2 ^ k.toNat ≤ a * 2 ^ (-k).toNat then k else k - 1

/-- The integer nearest to `p / q`, a tie going to the even neighbour. -/
def roundHalfEven (p q : Nat) : Nat :=
  let f := p / q
  let r := p % q
  if 2 * r < q then f
  else if q < 2 * r then f + 1
  else if f % 2 = 0 then f
  else f + 1

/-- The exponent of the last place of a float64 in the binade of `a / q`. -/
def ulpExp (a q : Nat) : Int := max (binade a q - 52) (-1074)

/-- Rounding of an exact result to float64 (IEEE 754 binary64, round to nearest,
ties to even): the magnitude is scaled by its unit in the last place, rounded
to an integer significand and scaled back; the sign is kept. -/
def round64 (x : Frac) : Frac :=
  if x.num = 0 then ⟨0, 1⟩
  else
    let a := x.num.natAbs
    let t := ulpExp a x.den
    let m := roundHalfEven (a * 2 ^ (-t).toNat) (x.den * 2 ^ t.toNat)
    ⟨x.num.sign * ((m * 2 ^ t.toNat : Nat) : Int), 2 ^ (-t).toNat⟩

/-- Exact sum. -/
def Frac.add (x y : Frac) : Frac := ⟨x.num * y.den + y.num * x.den, x.den * y.den⟩

/-- Exact quotient (the divisor is not zero wherever this is used). -/
def Frac.div (x y : Frac) : Frac := ⟨x.num * y.den * y.num.sign, x.den * y.num.natAbs⟩

/-- The conversion `float64(n)` of an integer: the value rounded to float64. -/
def f64OfInt (n : Int) : Frac := round64 ⟨n, 1⟩

/-- The float64 sum `x + y`. -/
def f64Add (x y : Frac) : Frac := round64 (x.add y)

/-- The float64 quotient `x / y`. -/
def f64Div (x y : Frac) : Frac := round64 (x.div y)

/-- The float64 comparison `x > y`. -/
def f64Gt (x y : Frac) : Bool := decide (y.num * x.den < x.num * y.den)

/-- The conversion `int(x)` of a float64: the fraction is discarded
(truncation towards zero). -/
def f64ToInt (x : Frac) : Int := Int.tdiv x.num x.den

/-! ## time.Duration -/

/-- A `time.Duration`: nanoseconds, an int64. -/
abbrev Duration := Int

/-- `time.Second`. -/
def Second : Duration := 1000000000

/-- `time.Minute`. -/
def Minute : Duration := 60 * Second

/-- `time.Hour`. -/
def Hour : Duration := 60 * Minute

/-- The least `time.Duration`. -/
def minDuration : Duration := -(2 ^ 63)

/-- The greatest `time.Duration`. -/
def maxDuration : Duration := 2 ^ 63 - 1

/-- `Time.Sub`: the difference `t - u`, or the least or greatest duration when
the difference does not fit. -/
def Time.Sub (t u : Time) : Duration :=
  if t - u < minDuration then minDuration
  else if maxDuration < t - u then maxDuration
  else t - u

/-- `time.Since(t)`, which is `time.Now().Sub(t)`; `now` is the clock reading. -/
def Since (now t : Time) : Duration := Time.Sub now t

/-- `Duration.Hours`: `float64(d / Hour) + float64(d % Hour) / (60*60*1e9)`. -/
def Duration.Hours (d : Duration) : Frac :=
  let hour := Int.tdiv d Hour
  let nsec := Int.tmod d Hour
  f64Add (f64OfInt hour) (f64Div (f64OfInt nsec) (f64OfInt (60 * 60 * 1000000000)))

/-- `Duration.Minutes`: `float64(d / Minute) + float64(d % Minute) / (60*1e9)`. -/
def Duration.Minutes (d : Duration) : Frac :=
  let min := Int.tdiv d Minute
  let nsec := Int.tmod d Minute
  f64Add (f64OfInt min) (f64Div (f64OfInt nsec) (f64OfInt (60 * 1000000000)))

/-- `Duration.Seconds`: `float64(d / Second) + float64(d % Second) / 1e9`. -/
def Duration.Seconds (d : Duration) : Frac :=
  let sec := Int.tdiv d Second
  let nsec := Int.tmod d Second
  f64Add (f64OfInt sec) (f64Div (f64OfInt nsec) (f64OfInt 1000000000))

/-! ## getAge -/

/-- The `%d` verb of `fmt.Sprintf`: decimal digits, a leading `-` when negative. -/
def formatInt (n : Int) : String :=
  if n < 0 then "-" ++ String.mk (Nat.toDigits 10 n.natAbs)
  else String.mk (Nat.toDigits 10 n.natAbs)

/-- `Lister.getAge` (lister.go 176-194); `now` is the reading of the clock that
`time.Since` takes. -/
def getAge (now : Time) (creationTime : Time) : String :=
  let duration := Since now creationTime
  if f64Gt (Duration.Hours duration) (f64OfInt (24 * 365)) then
    let years := f64ToInt (f64Div (Duration.Hours duration) (f64OfInt (24 * 365)))
    formatInt years ++ "y"
  else if f64Gt (Duration.Hours duration) (f64OfInt (24 * 30)) then
    let months := f64ToInt (f64Div (Duration.Hours duration) (f64OfInt (24 * 30)))
    formatInt months ++ "mo"
  else if f64Gt (Duration.Hours duration) (f64OfInt 24) then
    let days := f64ToInt (f64Div (Duration.Hours duration) (f64OfInt 24))
    formatInt days ++ "d"
  else if f64Gt (Duration.Hours duration) (f64OfInt 1) then
    formatInt (f64ToInt (Duration.Hours duration)) ++ "h"
  else if f64Gt (Duration.Minutes duration) (f64OfInt 1) then
    formatInt (f64ToInt (Duration.Minutes duration)) ++ "m"
  else
    formatInt (f64ToInt (Duration.Seconds duration)) ++ "s"

/-! ## extractPipelineRunInfo -/

/-- The loop of `extractPipelineRunInfo` (lister.go 112-129): `results` is the
slice built so far and `i` the number of rows already appended.  `getAge`
reads the clock once for each row; `clock i` is the reading taken for row `i`. -/
def extractLoop (clock : Nat → Time) (labelKey : String) :
    List PipelineRun → Nat → List PipelineRunInfo → List PipelineRunInfo
  | [], _, results => results
  | pr :: rest, i, results =>
    let info : PipelineRunInfo :=
      { Name := pr.Name
        Namespace := pr.Namespace
        Status := getStatus pr
        ScheduleValue := pr.Labels.index labelKey
        Age := getAge (clock i) pr.CreationTimestamp
        StartTime := pr.Status.StartTime
        CompletionTime := pr.Status.CompletionTime
        Labels := pr.Labels }
    let info : PipelineRunInfo :=
      match pr.Spec.PipelineRef with
      | some ref => { info with Pipeline := ref.Name }
      | none => info
    extractLoop clock labelKey rest (i + 1) (results ++ [info])

/-- `Lister.extractPipelineRunInfo` (lister.go 109-132). -/
def extractPipelineRunInfo (clock : Nat → Time) (items : List PipelineRun)
    (labelKey : String) : List PipelineRunInfo :=
  extractLoop clock labelKey items 0 []

/-! ## Reading the model -/

/-- The rational number a fraction stands for. -/
def Frac.val (x : Frac) : ℚ := (x.num : ℚ) / (x.den : ℚ)

/-- The common shape of `Duration.Hours`, `Duration.Minutes` and
`Duration.Seconds`: the duration counted in the given unit. -/
def Duration.inUnits (unit : Duration) (d : Duration) : Frac :=
  f64Add (f64OfInt (Int.tdiv d unit)) (f64Div (f64OfInt (Int.tmod d unit)) (f64OfInt unit))

/-- The six units of `getAge`, largest first. -/
inductive AgeUnit where
  | years
  | months
  | days
  | hours
  | minutes
  | seconds
deriving DecidableEq, Repr

/-- The suffix `getAge` prints for a unit. -/
def AgeUnit.suffix : AgeUnit → String
  | .years => "y"
  | .months => "mo"
  | .days => "d"
  | .hours => "h"
  | .minutes => "m"
  | .seconds => "s"

/-- The branch of `getAge` that a duration takes. -/
def ageUnit (duration : Duration) : AgeUnit :=
  if f64Gt (Duration.Hours duration) (f64OfInt (24 * 365)) then .years
  else if f64Gt (Duration.Hours duration) (f64OfInt (24 * 30)) then .months
  else if f64Gt (Duration.Hours duration) (f64OfInt 24) then .days
  else if f64Gt (Duration.Hours duration) (f64OfInt 1) then .hours
  else if f64Gt (Duration.Minutes duration) (f64OfInt 1) then .minutes
  else .seconds

/-- The number `getAge` prints in the branch of a unit. -/
def ageNumber (u : AgeUnit) (duration : Duration) : Int :=
  match u with
  | .years => f64ToInt (f64Div (Duration.Hours duration) (f64OfInt (24 * 365)))
  | .months => f64ToInt (f64Div (Duration.Hours duration) (f64OfInt (24 * 30)))
  | .days => f64ToInt (f64Div (Duration.Hours duration) (f64OfInt 24))
  | .hours => f64ToInt (Duration.Hours duration)
  | .minutes => f64ToInt (Duration.Minutes duration)
  | .seconds => f64ToInt (Duration.Seconds duration)

/-- The number a string of decimal digits denotes. -/
def digitsVal (cs : List Char) : Nat :=
  cs.foldl (fun v c => 10 * v + (c.toNat - 48)) 0

/-- A character of a printed integer: a digit or the sign. -/
def numeric (c : Char) : Prop := c.isDigit = true ∨ c = '-'

/-- The age rule in the specification's words (section 4.2): the thresholds
are tested on the elapsed nanoseconds themselves and the number is the whole
quotient by the unit, with 24-hour days, 30-day months and 365-day years. -/
def specAge (e : Duration) : String :=
  if e > 365 * (24 * Hour) then formatInt (e / (365 * (24 * Hour))) ++ "y"
  else if e > 30 * (24 * Hour) then formatInt (e / (30 * (24 * Hour))) ++ "mo"
  else if e > 24 * Hour then formatInt (e / (24 * Hour)) ++ "d"
  else if e > Hour then formatInt (e / Hour) ++ "h"
  else if e > Minute then formatInt (e / Minute) ++ "m"
  else formatInt (e / Second) ++ "s"

/-! ## Sample inputs (the runs of `TestExtractPipelineRunInfo`) -/

/-- The label key of `main.go`. -/
def sampleKey : String := "imagebuild.ba.de/imagebuildschedule"

/-- The run `test-pr-1` of lister_test.go. -/
def sampleRun1 : PipelineRun :=
  { Name := "test-pr-1"
    Namespace := "default"
    Labels := some [(sampleKey, "daily")]
    CreationTimestamp := 0
    Spec := { PipelineRef := some { Name := "test-pipeline" } }
    Status :=
      { Conditions := [{ Type_ := "Succeeded", Status := ConditionTrue }]
        StartTime := some 0
        CompletionTime := some 3600000000000 } }

/-- The run `test-pr-2` of lister_test.go. -/
def sampleRun2 : PipelineRun :=
  { Name := "test-pr-2"
    Namespace := "production"
    Labels := some [(sampleKey, "weekly")]
    CreationTimestamp := 0
    Status :=
      { Conditions := [{ Type_ := "Succeeded", Status := ConditionUnknown,
                         Reason := "Running" }] } }

/-! ## Proofs: getStatus -/

theorem findSucceeded_none (cs : List Condition)
    (h : ∀ c ∈ cs, c.Type_ ≠ "Succeeded") : findSucceeded cs = none := by
  induction cs with
  | nil => rfl
  | cons c rest ih =>
    have hc : c.Type_ ≠ "Succeeded" := h c (List.mem_cons_self c rest)
    have hr : ∀ x ∈ rest, x.Type_ ≠ "Succeeded" :=
      fun x hx => h x (List.mem_cons_of_mem c hx)
    simp [findSucceeded, hc, ih hr]

theorem findSucceeded_first (pre post : List Condition) (c : Condition)
    (hpre : ∀ x ∈ pre, x.Type_ ≠ "Succeeded") (hc : c.Type_ = "Succeeded") :
    findSucceeded (pre ++ c :: post) = some c := by
  induction pre with
  | nil => simp [findSucceeded, hc]
  | cons x rest ih =>
    have hx : x.Type_ ≠ "Succeeded" := hpre x (List.mem_cons_self x rest)
    have hr : ∀ y ∈ rest, y.Type_ ≠ "Succeeded" :=
      fun y hy => hpre y (List.mem_cons_of_mem x hy)
    simp [findSucceeded, hx, ih hr]

/-- What `getStatus` returns once the first `Succeeded`-typed condition is known. -/
theorem getStatus_of_first (pr : PipelineRun) (pre post : List Condition) (c : Condition)
    (hlist : pr.Status.Conditions = pre ++ c :: post)
    (hpre : ∀ x ∈ pre, x.Type_ ≠ "Succeeded") (hc : c.Type_ = "Succeeded") :
    getStatus pr =
      if c.Status = ConditionTrue then "Succeeded"
      else if c.Status = ConditionFalse then
        if c.Reason = "Failed" then "Failed"
        else if c.Reason = "Cancelled" then "Cancelled"
        else if c.Reason = "PipelineRunTimeout" then "Timeout"
        else "Failed (" ++ c.Reason ++ ")"
      else if c.Status = ConditionUnknown then
        if c.Reason = "Running" then "Running" else "Pending"
      else "Unknown" := by
  have hlen : ¬ (pre ++ c :: post).length = 0 := by simp
  unfold getStatus
  simp only [hlist, hlen, if_false, findSucceeded_first pre post c hpre hc]

/-- C1: a condition list with no condition of type exactly `"Succeeded"` (the
empty list included) is classified `"Unknown"`, whatever the status and reason
fields hold. -/
theorem getStatus_no_succeeded (pr : PipelineRun)
    (h : ∀ c ∈ pr.Status.Conditions, c.Type_ ≠ "Succeeded") :
    getStatus pr = "Unknown" := by
  unfold getStatus
  simp only [findSucceeded_none pr.Status.Conditions h]
  split <;> rfl

theorem getStatus_no_succeeded_witness :
    getStatus { Status := { Conditions :=
        [{ Type_ := "succeeded", Status := "True", Reason := "Failed" },
         { Type_ := "Ready", Status := "False", Reason := "Running" }] } } = "Unknown" :=
  getStatus_no_succeeded _ (by decide)

/-- C2: when the first `Succeeded`-typed condition has status `False`, the
label is `"Failed"`, `"Cancelled"` or `"Timeout"` for the reasons `"Failed"`,
`"Cancelled"` and `"PipelineRunTimeout"`, and `"Failed (" ++ r ++ ")"` for any
other non-empty reason `r`; the conditions before and after do not matter. -/
theorem getStatus_false (pr : PipelineRun) (pre post : List Condition) (c : Condition)
    (hlist : pr.Status.Conditions = pre ++ c :: post)
    (hpre : ∀ x ∈ pre, x.Type_ ≠ "Succeeded") (hc : c.Type_ = "Succeeded")
    (hs : c.Status = ConditionFalse) :
    (c.Reason = "Failed" → getStatus pr = "Failed") ∧
    (c.Reason = "Cancelled" → getStatus pr = "Cancelled") ∧
    (c.Reason = "PipelineRunTimeout" → getStatus pr = "Timeout") ∧
    (c.Reason ≠ "" → c.Reason ≠ "Failed" → c.Reason ≠ "Cancelled" →
      c.Reason ≠ "PipelineRunTimeout" →
      getStatus pr = "Failed (" ++ c.Reason ++ ")") := by
  have hne : ¬ ConditionFalse = ConditionTrue := by decide
  rw [getStatus_of_first pr pre post c hlist hpre hc, hs]
  simp only [hne, if_true, if_false]
  refine ⟨?_, ?_, ?_, ?_⟩
  · intro h; simp [h]
  · intro h; simp [h]
  · intro h; simp [h]
  · intro _ h1 h2 h3; simp [h1, h2, h3]

theorem getStatus_false_witness :
    getStatus { Status := { Conditions :=
        [{ Type_ := "Ready", Status := "True" },
         { Type_ := "Succeeded", Status := "False", Reason := "SomethingElse" },
         { Type_ := "Succeeded", Status := "True" }] } } = "Failed (SomethingElse)" :=
  (getStatus_false _ [{ Type_ := "Ready", Status := "True" }]
    [{ Type_ := "Succeeded", Status := "True" }]
    { Type_ := "Succeeded", Status := "False", Reason := "SomethingElse" }
    rfl (by decide) rfl rfl).2.2.2 (by decide) (by decide) (by decide) (by decide)

/-- C3: when the first `Succeeded`-typed condition has status `Unknown`, the
label is `"Running"` exactly when its reason is `"Running"`, and `"Pending"`
for every other reason, the empty one included. -/
theorem getStatus_unknown (pr : PipelineRun) (pre post : List Condition) (c : Condition)
    (hlist : pr.Status.Conditions = pre ++ c :: post)
    (hpre : ∀ x ∈ pre, x.Type_ ≠ "Succeeded") (hc : c.Type_ = "Succeeded")
    (hs : c.Status = ConditionUnknown) :
    (getStatus pr = "Running" ↔ c.Reason = "Running") ∧
    (c.Reason ≠ "Running" → getStatus pr = "Pending") := by
  have h1 : ¬ ConditionUnknown = ConditionTrue := by decide
  have h2 : ¬ ConditionUnknown = ConditionFalse := by decide
  rw [getStatus_of_first pr pre post c hlist hpre hc, hs]
  simp only [h1, h2, if_true, if_false]
  by_cases hr : c.Reason = "Running"
  · simp [hr]
  · simp only [hr, if_false, iff_false]
    exact ⟨by decide, fun _ => trivial⟩

theorem getStatus_unknown_witness :
    (getStatus { Status := { Conditions :=
        [{ Type_ := "Succeeded", Status := "Unknown", Reason := "" }] } } = "Running"
      ↔ "" = "Running") ∧
    ("" ≠ "Running" → getStatus { Status := { Conditions :=
        [{ Type_ := "Succeeded", Status := "Unknown", Reason := "" }] } } = "Pending") :=
  getStatus_unknown _ [] [] { Type_ := "Succeeded", Status := "Unknown", Reason := "" }
    rfl (by decide) rfl rfl

/-- C4: when the first `Succeeded`-typed condition has status `True`, the label
is `"Succeeded"`, whatever its reason and whatever the other conditions are,
later `Succeeded`-typed conditions included. -/
theorem getStatus_true (pr : PipelineRun) (pre post : List Condition) (c : Condition)
    (hlist : pr.Status.Conditions = pre ++ c :: post)
    (hpre : ∀ x ∈ pre, x.Type_ ≠ "Succeeded") (hc : c.Type_ = "Succeeded")
    (hs : c.Status = ConditionTrue) :
    getStatus pr = "Succeeded" := by
  rw [getStatus_of_first pr pre post c hlist hpre hc]
  simp [hs]

theorem getStatus_true_witness :
    getStatus { Status := { Conditions :=
        [{ Type_ := "Ready", Status := "False" },
         { Type_ := "Succeeded", Status := "True", Reason := "Failed" },
         { Type_ := "Succeeded", Status := "False", Reason := "Cancelled" }] } } = "Succeeded" :=
  getStatus_true _ [{ Type_ := "Ready", Status := "False" }]
    [{ Type_ := "Succeeded", Status := "False", Reason := "Cancelled" }]
    { Type_ := "Succeeded", Status := "True", Reason := "Failed" }
    rfl (by decide) rfl rfl

/-! ## Proofs: extractPipelineRunInfo -/

theorem extractLoop_append (clock : Nat → Time) (labelKey : String) :
    ∀ (items : List PipelineRun) (i : Nat) (results : List PipelineRunInfo),
      extractLoop clock labelKey items i results
        = results ++ extractLoop clock labelKey items i [] := by
  intro items
  induction items with
  | nil => intro i results; simp [extractLoop]
  | cons pr rest ih =>
    intro i results
    simp only [extractLoop]
    rw [ih (i + 1) (results ++ _), ih (i + 1) ([] ++ _)]
    simp

/-- Row `j` of the loop's output, started at clock index `i`, is the projection
of input `j`. -/
theorem extractLoop_row (clock : Nat → Time) (labelKey : String) :
    ∀ (items : List PipelineRun) (i j : Nat) (pr : PipelineRun),
      items[j]? = some pr →
      ∃ row, (extractLoop clock labelKey items i [])[j]? = some row ∧
        row.Name = pr.Name ∧ row.Namespace = pr.Namespace ∧ row.Labels = pr.Labels ∧
        row.Status = getStatus pr ∧
        row.StartTime = pr.Status.StartTime ∧
        row.CompletionTime = pr.Status.CompletionTime ∧
        row.Age = getAge (clock (i + j)) pr.CreationTimestamp ∧
        row.ScheduleValue = pr.Labels.index labelKey ∧
        row.Pipeline = (match pr.Spec.PipelineRef with
          | some ref => ref.Name
          | none => "") := by
  intro items
  induction items with
  | nil => intro i j pr h; simp at h
  | cons x rest ih =>
    intro i j pr h
    simp only [extractLoop]
    rw [extractLoop_append]
    cases j with
    | zero =>
      simp only [List.getElem?_cons_zero, Option.some.injEq] at h
      subst h
      refine ⟨_, by simp; rfl, ?_⟩
      cases hx : x.Spec.PipelineRef <;> simp
    | succ k =>
      simp only [List.getElem?_cons_succ] at h
      obtain ⟨row, hrow, hrest⟩ := ih (i + 1) k pr h
      refine ⟨row, ?_, ?_⟩
      · simpa using hrow
      · have e : i + 1 + k = i + (k + 1) := by omega
        rw [e] at hrest
        exact hrest

theorem extractLoop_length (clock : Nat → Time) (labelKey : String) :
    ∀ (items : List PipelineRun) (i : Nat) (results : List PipelineRunInfo),
      (extractLoop clock labelKey items i results).length = results.length + items.length := by
  intro items
  induction items with
  | nil => intro i results; simp [extractLoop]
  | cons pr rest ih =>
    intro i results
    simp only [extractLoop]
    rw [ih]
    simp
    omega

/-- C9: the output of `extractPipelineRunInfo` has the length of its input, and
row `i` carries the name, namespace and labels of input `i`, the status
`getStatus` gives for input `i`, and its start and completion times unchanged;
so no input is dropped, repeated or moved. -/
theorem extractPipelineRunInfo_one_to_one (clock : Nat → Time) (items : List PipelineRun)
    (labelKey : String) :
    (extractPipelineRunInfo clock items labelKey).length = items.length ∧
    ∀ (i : Nat) (pr : PipelineRun), items[i]? = some pr →
      ∃ row, (extractPipelineRunInfo clock items labelKey)[i]? = some row ∧
        row.Name = pr.Name ∧ row.Namespace = pr.Namespace ∧ row.Labels = pr.Labels ∧
        row.Status = getStatus pr ∧
        row.StartTime = pr.Status.StartTime ∧
        row.CompletionTime = pr.Status.CompletionTime := by
  refine ⟨?_, ?_⟩
  · unfold extractPipelineRunInfo
    rw [extractLoop_length]
    simp
  · intro i pr h
    obtain ⟨row, h0, h1, h2, h3, h4, h5, h6, _⟩ := extractLoop_row clock labelKey items 0 i pr h
    exact ⟨row, h0, h1, h2, h3, h4, h5, h6⟩

theorem extractPipelineRunInfo_one_to_one_witness :
    ∃ row, (extractPipelineRunInfo (fun _ => 7200000000000)
        [sampleRun1, sampleRun2] sampleKey)[1]? = some row ∧
      row.Name = sampleRun2.Name ∧ row.Namespace = sampleRun2.Namespace ∧
      row.Labels = sampleRun2.Labels ∧
      row.Status = getStatus sampleRun2 ∧
      row.StartTime = sampleRun2.Status.StartTime ∧
      row.CompletionTime = sampleRun2.Status.CompletionTime :=
  (extractPipelineRunInfo_one_to_one (fun _ => 7200000000000)
    [sampleRun1, sampleRun2] sampleKey).2 1 sampleRun2 rfl

/-- C10: in the row of a run, `ScheduleValue` is the value the run's labels hold
under the label key, and `""` when the key is absent or the run has no labels;
`Pipeline` is the name of the pipeline reference, and `""` when there is none. -/
theorem extractPipelineRunInfo_schedule_pipeline (clock : Nat → Time)
    (items : List PipelineRun) (labelKey : String) (i : Nat) (pr : PipelineRun)
    (h : items[i]? = some pr) :
    ∃ row, (extractPipelineRunInfo clock items labelKey)[i]? = some row ∧
      (∀ kvs v, pr.Labels = some kvs → kvs.lookup labelKey = some v →
        row.ScheduleValue = v) ∧
      (∀ kvs, pr.Labels = some kvs → kvs.lookup labelKey = none →
        row.ScheduleValue = "") ∧
      (pr.Labels = none → row.ScheduleValue = "") ∧
      (∀ ref, pr.Spec.PipelineRef = some ref → row.Pipeline = ref.Name) ∧
      (pr.Spec.PipelineRef = none → row.Pipeline = "") := by
  obtain ⟨row, h0, _, _, _, _, _, _, _, hs, hp⟩ :=
    extractLoop_row clock labelKey items 0 i pr h
  refine ⟨row, h0, ?_, ?_, ?_, ?_, ?_⟩
  · intro kvs v hl hv; rw [hs, hl]; simp [StringMap.index, hv]
  · intro kvs hl hv; rw [hs, hl]; simp [StringMap.index, hv]
  · intro hl; rw [hs, hl]; rfl
  · intro ref hr; rw [hp, hr]
  · intro hr; rw [hp, hr]

theorem extractPipelineRunInfo_schedule_pipeline_witness :
    ∃ row, (extractPipelineRunInfo (fun _ => 7200000000000)
        [sampleRun1, sampleRun2] sampleKey)[0]? = some row ∧
      (∀ kvs v, sampleRun1.Labels = some kvs → kvs.lookup sampleKey = some v →
        row.ScheduleValue = v) ∧
      (∀ kvs, sampleRun1.Labels = some kvs → kvs.lookup sampleKey = none →
        row.ScheduleValue = "") ∧
      (sampleRun1.Labels = none → row.ScheduleValue = "") ∧
      (∀ ref, sampleRun1.Spec.PipelineRef = some ref → row.Pipeline = ref.Name) ∧
      (sampleRun1.Spec.PipelineRef = none → row.Pipeline = "") :=
  extractPipelineRunInfo_schedule_pipeline (fun _ => 7200000000000)
    [sampleRun1, sampleRun2] sampleKey 0 sampleRun1 rfl

/-! ## Proofs: float64 rounding -/

set_option maxRecDepth 100000

theorem log2Fuel_spec : ∀ (fuel n : Nat), n ≤ fuel → 0 < n →
    2 ^ log2Fuel fuel n ≤ n ∧ n < 2 ^ (log2Fuel fuel n + 1) := by
  intro fuel
  induction fuel with
  | zero => intro n h1 h2; omega
  | succ f ih =>
    intro n h1 h2
    unfold log2Fuel
    by_cases h : n < 2
    · simp only [h, if_true]
      constructor
      · simpa using h2
      · simpa using h
    · simp only [h, if_false]
      have hle : n / 2 ≤ f := by omega
      have hpos : 0 < n / 2 := by omega
      obtain ⟨a, b⟩ := ih (n / 2) hle hpos
      rw [pow_succ] at b
      rw [pow_succ, pow_succ, pow_succ]
      constructor <;> omega

theorem floorLog2_spec (n : Nat) (h : 0 < n) :
    2 ^ floorLog2 n ≤ n ∧ n < 2 ^ (floorLog2 n + 1) :=
  log2Fuel_spec n n le_rfl h

/-- A power of two with an integer exponent, as a quotient of natural powers. -/
theorem zpow_two_split (t : ℤ) :
    (2 : ℚ) ^ t = ((2 ^ t.toNat : ℕ) : ℚ) / ((2 ^ (-t).toNat : ℕ) : ℚ) := by
  rcases le_total 0 t with h | h
  · obtain ⟨n, rfl⟩ := Int.eq_ofNat_of_zero_le h
    have : (-(n : ℤ)).toNat = 0 := by omega
    simp [this]
  · obtain ⟨n, hn⟩ := Int.eq_ofNat_of_zero_le (neg_nonneg.mpr h)
    have ht : t = -(n : ℤ) := by omega
    subst ht
    have : (-(n : ℤ)).toNat = 0 := by omega
    simp [this, zpow_neg]

theorem binade_spec (a q : Nat) (ha : 0 < a) (hq : 0 < q) :
    (2 : ℚ) ^ binade a q ≤ (a : ℚ) / q ∧ (a : ℚ) / q < (2 : ℚ) ^ (binade a q + 1) := by
  obtain ⟨a1, a2⟩ := floorLog2_spec a ha
  obtain ⟨q1, q2⟩ := floorLog2_spec q hq
  have hqQ : (0 : ℚ) < q := by exact_mod_cast hq
  have a1' : (2 : ℚ) ^ (floorLog2 a : ℤ) ≤ a := by
    rw [zpow_natCast]; exact_mod_cast a1
  have a2' : (a : ℚ) < (2 : ℚ) ^ ((floorLog2 a : ℤ) + 1) := by
    have : ((floorLog2 a : ℤ) + 1) = ((floorLog2 a + 1 : ℕ) : ℤ) := by push_cast; ring
    rw [this, zpow_natCast]; exact_mod_cast a2
  have q1' : (2 : ℚ) ^ (floorLog2 q : ℤ) ≤ q := by
    rw [zpow_natCast]; exact_mod_cast q1
  have q2' : (q : ℚ) < (2 : ℚ) ^ ((floorLog2 q : ℤ) + 1) := by
    have : ((floorLog2 q : ℤ) + 1) = ((floorLog2 q + 1 : ℕ) : ℤ) := by push_cast; ring
    rw [this, zpow_natCast]; exact_mod_cast q2
  have two_pos : ∀ z : ℤ, (0 : ℚ) < (2 : ℚ) ^ z := fun z => zpow_pos (by norm_num) z
  -- the quotient lies strictly between 2^(k-1) and 2^(k+1)
  have hup : (a : ℚ) / q < (2 : ℚ) ^ ((floorLog2 a : ℤ) - floorLog2 q + 1) := by
    rw [div_lt_iff₀ hqQ]
    have e : (2 : ℚ) ^ ((floorLog2 a : ℤ) - floorLog2 q + 1)
        = (2 : ℚ) ^ ((floorLog2 a : ℤ) + 1) / (2 : ℚ) ^ (floorLog2 q : ℤ) := by
      rw [← zpow_sub₀ (by norm_num : (2 : ℚ) ≠ 0)]; congr 1; ring
    rw [e, div_mul_eq_mul_div, lt_div_iff₀ (two_pos _)]
    calc (a : ℚ) * 2 ^ (floorLog2 q : ℤ) ≤ a * q := by
          apply mul_le_mul_of_nonneg_left q1' (by positivity)
      _ < 2 ^ ((floorLog2 a : ℤ) + 1) * q := by
          apply mul_lt_mul_of_pos_right a2' hqQ
  have hlow : (2 : ℚ) ^ ((floorLog2 a : ℤ) - floorLog2 q - 1) < (a : ℚ) / q := by
    rw [lt_div_iff₀ hqQ]
    have e : (2 : ℚ) ^ ((floorLog2 a : ℤ) - floorLog2 q - 1)
        = (2 : ℚ) ^ (floorLog2 a : ℤ) / (2 : ℚ) ^ ((floorLog2 q : ℤ) + 1) := by
      rw [← zpow_sub₀ (by norm_num : (2 : ℚ) ≠ 0)]; congr 1; ring
    rw [e, div_mul_eq_mul_div, div_lt_iff₀ (two_pos _)]
    calc (2 : ℚ) ^ (floorLog2 a : ℤ) * q < 2 ^ (floorLog2 a : ℤ) * 2 ^ ((floorLog2 q : ℤ) + 1) := by
          apply mul_lt_mul_of_pos_left q2' (two_pos _)
      _ ≤ a * 2 ^ ((floorLog2 q : ℤ) + 1) := by
          apply mul_le_mul_of_nonneg_right a1' (le_of_lt (two_pos _))
  unfold binade
  simp only
  set k : ℤ := (floorLog2 a : ℤ) - (floorLog2 q : ℤ) with hk
  have htest : (q * 2 ^ k.toNat ≤ a * 2 ^ (-k).toNat) ↔ (2 : ℚ) ^ k ≤ (a : ℚ) / q := by
    rw [zpow_two_split k, le_div_iff₀ hqQ, div_mul_eq_mul_div,
      div_le_iff₀ (by positivity)]
    constructor
    · intro h
      have : ((q * 2 ^ k.toNat : ℕ) : ℚ) ≤ ((a * 2 ^ (-k).toNat : ℕ) : ℚ) := by exact_mod_cast h
      push_cast at this ⊢
      linarith
    · intro h
      have : ((q * 2 ^ k.toNat : ℕ) : ℚ) ≤ ((a * 2 ^ (-k).toNat : ℕ) : ℚ) := by
        push_cast at h ⊢
        linarith
      exact_mod_cast this
  by_cases ht : q * 2 ^ k.toNat ≤ a * 2 ^ (-k).toNat
  · simp only [ht, if_true]
    exact ⟨htest.mp ht, hup⟩
  · simp only [ht, if_false]
    have hlt : (a : ℚ) / q < (2 : ℚ) ^ k := lt_of_not_le (fun h => ht (htest.mpr h))
    refine ⟨le_of_lt hlow, ?_⟩
    simpa using hlt

theorem roundHalfEven_bounds (p q : Nat) :
    p / q ≤ roundHalfEven p q ∧ roundHalfEven p q ≤ p / q + 1 := by
  unfold roundHalfEven
  simp only
  split_ifs <;> omega

/-- Rounding to the nearest integer is monotone in the fraction rounded. -/
theorem roundHalfEven_mono_nat (p1 q1 p2 q2 : Nat) (h1 : 0 < q1) (h2 : 0 < q2)
    (h : p1 * q2 ≤ p2 * q1) : roundHalfEven p1 q1 ≤ roundHalfEven p2 q2 := by
  have e1 := Nat.div_add_mod p1 q1
  have e2 := Nat.div_add_mod p2 q2
  have r1 := Nat.mod_lt p1 h1
  have r2 := Nat.mod_lt p2 h2
  -- the integer parts are ordered
  have K1 : p1 / q1 ≤ p2 / q2 := by
    by_contra hc
    have hc' : p2 / q2 + 1 ≤ p1 / q1 := by omega
    have a1 : q1 * (p2 / q2 + 1) ≤ p1 := by
      calc q1 * (p2 / q2 + 1) ≤ q1 * (p1 / q1) := Nat.mul_le_mul_left _ hc'
        _ ≤ p1 := by omega
    have a2 : p2 < q2 * (p2 / q2 + 1) := by
      rw [Nat.mul_add, Nat.mul_one]; omega
    have : p1 * q2 < p1 * q2 := by
      calc p1 * q2 ≤ p2 * q1 := h
        _ < q2 * (p2 / q2 + 1) * q1 := Nat.mul_lt_mul_of_pos_right a2 h1
        _ = q1 * (p2 / q2 + 1) * q2 := by ring
        _ ≤ p1 * q2 := Nat.mul_le_mul_right _ a1
    exact lt_irrefl _ this
  rcases Nat.lt_or_ge (p1 / q1) (p2 / q2) with hlt | hge
  · have b1 := (roundHalfEven_bounds p1 q1).2
    have b2 := (roundHalfEven_bounds p2 q2).1
    omega
  · have hf : p1 / q1 = p2 / q2 := le_antisymm K1 hge
    -- the remainders are ordered as fractions
    have K2 : (p1 % q1) * q2 ≤ (p2 % q2) * q1 := by
      have h' : (q1 * (p1 / q1) + p1 % q1) * q2 ≤ (q2 * (p2 / q2) + p2 % q2) * q1 := by
        rw [e1, e2]; exact h
      rw [hf] at h'
      have : q1 * (p2 / q2) * q2 = q2 * (p2 / q2) * q1 := by ring
      rw [Nat.add_mul, Nat.add_mul, this] at h'
      omega
    have K3 : q1 ≤ 2 * (p1 % q1) → q2 ≤ 2 * (p2 % q2) := by
      intro hh
      by_contra hc
      have hc' : 2 * (p2 % q2) < q2 := by omega
      have : q1 * q2 < q1 * q2 := by
        calc q1 * q2 ≤ 2 * (p1 % q1) * q2 := Nat.mul_le_mul_right _ hh
          _ = 2 * ((p1 % q1) * q2) := by ring
          _ ≤ 2 * ((p2 % q2) * q1) := Nat.mul_le_mul_left _ K2
          _ = 2 * (p2 % q2) * q1 := by ring
          _ < q2 * q1 := Nat.mul_lt_mul_of_pos_right hc' h1
          _ = q1 * q2 := by ring
      exact lt_irrefl _ this
    have K4 : q1 < 2 * (p1 % q1) → q2 < 2 * (p2 % q2) := by
      intro hh
      by_contra hc
      have hc' : 2 * (p2 % q2) ≤ q2 := by omega
      have : q1 * q2 < q1 * q2 := by
        calc q1 * q2 < 2 * (p1 % q1) * q2 := Nat.mul_lt_mul_of_pos_right hh h2
          _ = 2 * ((p1 % q1) * q2) := by ring
          _ ≤ 2 * ((p2 % q2) * q1) := Nat.mul_le_mul_left _ K2
          _ = 2 * (p2 % q2) * q1 := by ring
          _ ≤ q2 * q1 := Nat.mul_le_mul_right _ hc'
          _ = q1 * q2 := by ring
      exact lt_irrefl _ this
    unfold roundHalfEven
    simp only
    rw [hf]
    split_ifs <;> omega

theorem roundHalfEven_mono (p1 q1 p2 q2 : Nat) (h1 : 0 < q1) (h2 : 0 < q2)
    (h : (p1 : ℚ) / q1 ≤ (p2 : ℚ) / q2) : roundHalfEven p1 q1 ≤ roundHalfEven p2 q2 := by
  apply roundHalfEven_mono_nat p1 q1 p2 q2 h1 h2
  have a1 : (0 : ℚ) < q1 := by exact_mod_cast h1
  have a2 : (0 : ℚ) < q2 := by exact_mod_cast h2
  rw [div_le_div_iff₀ a1 a2] at h
  exact_mod_cast h

theorem roundHalfEven_exact (n q : Nat) (hq : 0 < q) : roundHalfEven (n * q) q = n := by
  unfold roundHalfEven
  simp only
  have e1 : n * q / q = n := Nat.mul_div_cancel n hq
  have e2 : n * q % q = 0 := Nat.mul_mod_left n q
  rw [e1, e2]
  simp [hq]

theorem roundHalfEven_ge (n p q : Nat) (hq : 0 < q) (h : (n : ℚ) ≤ (p : ℚ) / q) :
    n ≤ roundHalfEven p q := by
  have := roundHalfEven_mono (n * 1) 1 p q Nat.one_pos hq (by simpa using h)
  rwa [roundHalfEven_exact n 1 Nat.one_pos] at this

theorem roundHalfEven_le (n p q : Nat) (hq : 0 < q) (h : (p : ℚ) / q ≤ (n : ℚ)) :
    roundHalfEven p q ≤ n := by
  have := roundHalfEven_mono p q (n * 1) 1 hq Nat.one_pos (by simpa using h)
  rwa [roundHalfEven_exact n 1 Nat.one_pos] at this

theorem two_zpow_pos (z : ℤ) : (0 : ℚ) < (2 : ℚ) ^ z := zpow_pos (by norm_num) z

theorem two_pow_cast (k : ℕ) : ((2 ^ k : ℕ) : ℚ) = (2 : ℚ) ^ (k : ℤ) := by
  rw [zpow_natCast]; push_cast; rfl

theorem two_pow_cast_mul (k : ℕ) (t : ℤ) :
    ((2 ^ k : ℕ) : ℚ) * (2 : ℚ) ^ t = (2 : ℚ) ^ (t + k) := by
  rw [two_pow_cast, ← zpow_add₀ (by norm_num : (2 : ℚ) ≠ 0), add_comm]

theorem round64_den_pos (x : Frac) : 0 < (round64 x).den := by
  unfold round64
  split_ifs
  · exact Nat.one_pos
  · exact Nat.two_pow_pos _

theorem round64_zero (x : Frac) (h : x.num = 0) : (round64 x).val = 0 := by
  unfold round64
  simp [h, Frac.val]

/-- The fraction handed to `roundHalfEven` is the value divided by the unit in
the last place. -/
theorem scaled_val (a q : Nat) (t : ℤ) :
    ((a * 2 ^ (-t).toNat : ℕ) : ℚ) / ((q * 2 ^ t.toNat : ℕ) : ℚ)
      = ((a : ℚ) / q) / (2 : ℚ) ^ t := by
  rw [zpow_two_split t]
  push_cast
  by_cases hq : (q : ℚ) = 0
  · simp [hq]
  · field_simp

/-- The value of a rounded positive fraction: the rounded significand times the
unit in the last place. -/
theorem round64_val_pos (a q : Nat) (ha : 0 < a) :
    (round64 ⟨(a : ℤ), q⟩).val
      = (roundHalfEven (a * 2 ^ (-(ulpExp a q)).toNat) (q * 2 ^ (ulpExp a q).toNat) : ℚ)
          * (2 : ℚ) ^ (ulpExp a q) := by
  have hne : (a : ℤ) ≠ 0 := by exact_mod_cast (Nat.pos_iff_ne_zero.mp ha)
  have hs : Int.sign (a : ℤ) = 1 := Int.sign_eq_one_of_pos (by exact_mod_cast ha)
  unfold round64
  simp only [hne, if_false, Int.natAbs_ofNat, hs, one_mul, Frac.val]
  rw [zpow_two_split (ulpExp a q)]
  push_cast
  ring

theorem round64_val_neg (a q : Nat) :
    (round64 ⟨-(a : ℤ), q⟩).val = -(round64 ⟨(a : ℤ), q⟩).val := by
  rcases Nat.eq_zero_or_pos a with h | h
  · subst h; simp [round64_zero]
  · have hne : (a : ℤ) ≠ 0 := by exact_mod_cast (Nat.pos_iff_ne_zero.mp h)
    have hne' : -(a : ℤ) ≠ 0 := by simpa using hne
    have hs : Int.sign (a : ℤ) = 1 := Int.sign_eq_one_of_pos (by exact_mod_cast h)
    have hs' : Int.sign (-(a : ℤ)) = -1 :=
      Int.sign_eq_neg_one_of_neg (by have : (0 : ℤ) < a := by exact_mod_cast h
                                     omega)
    unfold round64
    simp only [hne, hne', if_false, Int.natAbs_neg, Int.natAbs_ofNat, hs, hs', Frac.val]
    push_cast
    ring

theorem ulpExp_ge (a q : Nat) : binade a q - 52 ≤ ulpExp a q ∧ -1074 ≤ ulpExp a q := by
  unfold ulpExp
  constructor
  · exact le_max_left _ _
  · exact le_max_right _ _

theorem round64_val_nonneg (a q : Nat) : 0 ≤ (round64 ⟨(a : ℤ), q⟩).val := by
  rcases Nat.eq_zero_or_pos a with h | h
  · subst h; simp [round64_zero]
  · rw [round64_val_pos a q h]
    exact mul_nonneg (Nat.cast_nonneg _) (le_of_lt (two_zpow_pos _))

/-- Rounding is monotone on positive fractions. -/
theorem round64_mono_pos (a1 q1 a2 q2 : Nat) (ha1 : 0 < a1) (hq1 : 0 < q1)
    (ha2 : 0 < a2) (hq2 : 0 < q2) (h : (a1 : ℚ) / q1 ≤ (a2 : ℚ) / q2) :
    (round64 ⟨(a1 : ℤ), q1⟩).val ≤ (round64 ⟨(a2 : ℤ), q2⟩).val := by
  rw [round64_val_pos a1 q1 ha1, round64_val_pos a2 q2 ha2]
  obtain ⟨b1l, b1u⟩ := binade_spec a1 q1 ha1 hq1
  obtain ⟨b2l, b2u⟩ := binade_spec a2 q2 ha2 hq2
  have hb : binade a1 q1 ≤ binade a2 q2 := by
    have : (2 : ℚ) ^ binade a1 q1 < (2 : ℚ) ^ (binade a2 q2 + 1) :=
      lt_of_le_of_lt b1l (lt_of_le_of_lt h b2u)
    have := (zpow_lt_zpow_iff_right₀ (by norm_num : (1 : ℚ) < 2)).mp this
    omega
  set t1 := ulpExp a1 q1 with ht1
  set t2 := ulpExp a2 q2 with ht2
  have ht : t1 ≤ t2 := by
    rw [ht1, ht2]; unfold ulpExp
    exact max_le_max (by omega) le_rfl
  have hq1' : 0 < q1 * 2 ^ t1.toNat := Nat.mul_pos hq1 (Nat.two_pow_pos _)
  have hq2' : 0 < q2 * 2 ^ t2.toNat := Nat.mul_pos hq2 (Nat.two_pow_pos _)
  rcases eq_or_lt_of_le ht with heq | hlt
  · -- same unit in the last place: the significands are ordered
    rw [← heq]
    apply mul_le_mul_of_nonneg_right _ (le_of_lt (two_zpow_pos _))
    have : roundHalfEven (a1 * 2 ^ (-t1).toNat) (q1 * 2 ^ t1.toNat)
        ≤ roundHalfEven (a2 * 2 ^ (-t1).toNat) (q2 * 2 ^ t1.toNat) := by
      apply roundHalfEven_mono _ _ _ _ hq1' (by rw [heq]; exact hq2')
      rw [scaled_val, scaled_val]
      exact div_le_div_of_nonneg_right h (le_of_lt (two_zpow_pos _))
    exact_mod_cast this
  · -- a lower binade: a power of two separates the two results
    have ht2e : t2 = binade a2 q2 - 52 := by
      have h1074 : -1074 ≤ t1 := (ulpExp_ge a1 q1).2
      have : t2 = max (binade a2 q2 - 52) (-1074) := rfl
      rcases le_total (binade a2 q2 - 52) (-1074) with hc | hc
      · rw [max_eq_right hc] at this; omega
      · rw [max_eq_left hc] at this; exact this
    have hb1 : binade a1 q1 - 52 ≤ t1 := (ulpExp_ge a1 q1).1
    -- the separating power of two is 2 ^ (t2 + 52)
    obtain ⟨k, hk⟩ := Int.eq_ofNat_of_zero_le (show 0 ≤ t2 + 52 - t1 by omega)
    have low : (2 : ℚ) ^ (t2 + 52) ≤
        (roundHalfEven (a2 * 2 ^ (-t2).toNat) (q2 * 2 ^ t2.toNat) : ℚ) * (2 : ℚ) ^ t2 := by
      have hm : 2 ^ 52 ≤ roundHalfEven (a2 * 2 ^ (-t2).toNat) (q2 * 2 ^ t2.toNat) := by
        apply roundHalfEven_ge _ _ _ hq2'
        rw [scaled_val, le_div_iff₀ (two_zpow_pos _)]
        have : ((2 ^ 52 : ℕ) : ℚ) * (2 : ℚ) ^ t2 = (2 : ℚ) ^ binade a2 q2 := by
          rw [two_pow_cast_mul]
          congr 1
          omega
        rw [this]
        exact b2l
      have hm' : ((2 ^ 52 : ℕ) : ℚ) ≤
          (roundHalfEven (a2 * 2 ^ (-t2).toNat) (q2 * 2 ^ t2.toNat) : ℚ) := by
        exact_mod_cast hm
      calc (2 : ℚ) ^ (t2 + 52) = ((2 ^ 52 : ℕ) : ℚ) * (2 : ℚ) ^ t2 := by
            rw [two_pow_cast_mul]
            rfl
        _ ≤ _ := mul_le_mul_of_nonneg_right hm' (le_of_lt (two_zpow_pos _))
    have up : (roundHalfEven (a1 * 2 ^ (-t1).toNat) (q1 * 2 ^ t1.toNat) : ℚ) * (2 : ℚ) ^ t1
        ≤ (2 : ℚ) ^ (t2 + 52) := by
      have hm : roundHalfEven (a1 * 2 ^ (-t1).toNat) (q1 * 2 ^ t1.toNat) ≤ 2 ^ k := by
        apply roundHalfEven_le _ _ _ hq1'
        rw [scaled_val, div_le_iff₀ (two_zpow_pos _)]
        have : ((2 ^ k : ℕ) : ℚ) * (2 : ℚ) ^ t1 = (2 : ℚ) ^ (t2 + 52) := by
          rw [two_pow_cast_mul]
          congr 1
          omega
        rw [this]
        have hle : binade a1 q1 + 1 ≤ t2 + 52 := by omega
        exact le_trans (le_of_lt b1u)
          (zpow_le_zpow_right₀ (by norm_num : (1 : ℚ) ≤ 2) hle)
      have hm' : (roundHalfEven (a1 * 2 ^ (-t1).toNat) (q1 * 2 ^ t1.toNat) : ℚ)
          ≤ ((2 ^ k : ℕ) : ℚ) := by exact_mod_cast hm
      calc _ ≤ ((2 ^ k : ℕ) : ℚ) * (2 : ℚ) ^ t1 :=
            mul_le_mul_of_nonneg_right hm' (le_of_lt (two_zpow_pos _))
        _ = (2 : ℚ) ^ (t2 + 52) := by
            rw [two_pow_cast_mul]
            congr 1
            omega
    exact le_trans up low

theorem Frac.val_natCast (a q : Nat) : (Frac.mk (a : ℤ) q).val = (a : ℚ) / q := by
  simp [Frac.val]

theorem Frac.val_neg_natCast (a q : Nat) : (Frac.mk (-(a : ℤ)) q).val = -((a : ℚ) / q) := by
  simp [Frac.val, neg_div]

/-- Rounding is monotone on non-negative fractions. -/
theorem round64_mono_nonneg (a1 q1 a2 q2 : Nat) (hq1 : 0 < q1) (hq2 : 0 < q2)
    (h : (a1 : ℚ) / q1 ≤ (a2 : ℚ) / q2) :
    (round64 ⟨(a1 : ℤ), q1⟩).val ≤ (round64 ⟨(a2 : ℤ), q2⟩).val := by
  rcases Nat.eq_zero_or_pos a1 with h1 | h1
  · subst h1
    rw [round64_zero _ (by simp)]
    exact round64_val_nonneg a2 q2
  · have hq1' : (0 : ℚ) < q1 := by exact_mod_cast hq1
    have hq2' : (0 : ℚ) < q2 := by exact_mod_cast hq2
    have hpos : (0 : ℚ) < (a1 : ℚ) / q1 := div_pos (by exact_mod_cast h1) hq1'
    have h2 : 0 < a2 := by
      rcases Nat.eq_zero_or_pos a2 with h2 | h2
      · subst h2
        simp at h
        linarith
      · exact h2
    exact round64_mono_pos a1 q1 a2 q2 h1 hq1 h2 hq2 h

/-- Rounding to float64 is monotone. -/
theorem round64_mono (x y : Frac) (hx : 0 < x.den) (hy : 0 < y.den) (h : x.val ≤ y.val) :
    (round64 x).val ≤ (round64 y).val := by
  obtain ⟨xn, xd⟩ := x
  obtain ⟨yn, yd⟩ := y
  simp only at hx hy
  have hxd : (0 : ℚ) < xd := by exact_mod_cast hx
  have hyd : (0 : ℚ) < yd := by exact_mod_cast hy
  rcases Int.natAbs_eq xn with ex | ex <;> rcases Int.natAbs_eq yn with ey | ey
  · rw [ex, ey] at h ⊢
    rw [Frac.val_natCast, Frac.val_natCast] at h
    exact round64_mono_nonneg _ _ _ _ hx hy h
  · rw [ex, ey] at h ⊢
    rw [Frac.val_natCast, Frac.val_neg_natCast] at h
    have h0 : (0 : ℚ) ≤ (xn.natAbs : ℚ) / xd := by positivity
    have h1 : (0 : ℚ) ≤ (yn.natAbs : ℚ) / yd := by positivity
    have hz : (xn.natAbs : ℚ) / xd = 0 := by linarith
    have hz' : (xn.natAbs : ℚ) = 0 := by
      rcases div_eq_zero_iff.mp hz with u | u
      · exact u
      · linarith
    have hxz : xn.natAbs = 0 := by exact_mod_cast hz'
    have hy0 : (yn.natAbs : ℚ) / yd = 0 := by linarith
    have hy0' : (yn.natAbs : ℚ) = 0 := by
      rcases div_eq_zero_iff.mp hy0 with u | u
      · exact u
      · linarith
    have hyz : yn.natAbs = 0 := by exact_mod_cast hy0'
    rw [hxz, hyz]
    simp [round64_zero]
  · rw [ex, ey]
    rw [round64_val_neg]
    have a := round64_val_nonneg xn.natAbs xd
    have b := round64_val_nonneg yn.natAbs yd
    linarith
  · rw [ex, ey] at h ⊢
    rw [Frac.val_neg_natCast, Frac.val_neg_natCast] at h
    rw [round64_val_neg, round64_val_neg]
    have := round64_mono_nonneg yn.natAbs yd xn.natAbs xd hy hx (by linarith)
    linarith

theorem Frac.add_val (x y : Frac) (hx : 0 < x.den) (hy : 0 < y.den) :
    (x.add y).val = x.val + y.val := by
  have hxd : (x.den : ℚ) ≠ 0 := by exact_mod_cast (Nat.pos_iff_ne_zero.mp hx)
  have hyd : (y.den : ℚ) ≠ 0 := by exact_mod_cast (Nat.pos_iff_ne_zero.mp hy)
  simp only [Frac.add, Frac.val]
  push_cast
  field_simp

theorem Frac.add_den_pos (x y : Frac) (hx : 0 < x.den) (hy : 0 < y.den) :
    0 < (x.add y).den := Nat.mul_pos hx hy

theorem Frac.div_val (x y : Frac) (hx : 0 < x.den) (hy : 0 < y.den) (hn : 0 < y.num) :
    (x.div y).val = x.val / y.val := by
  have hxd : (x.den : ℚ) ≠ 0 := by exact_mod_cast (Nat.pos_iff_ne_zero.mp hx)
  have hyd : (y.den : ℚ) ≠ 0 := by exact_mod_cast (Nat.pos_iff_ne_zero.mp hy)
  have hs : y.num.sign = 1 := Int.sign_eq_one_of_pos hn
  have ha : ((y.num.natAbs : ℕ) : ℤ) = y.num := Int.natAbs_of_nonneg (le_of_lt hn)
  have ha' : ((y.num.natAbs : ℕ) : ℚ) = (y.num : ℚ) := by
    calc ((y.num.natAbs : ℕ) : ℚ) = (((y.num.natAbs : ℕ) : ℤ) : ℚ) := (Int.cast_natCast _).symm
      _ = (y.num : ℚ) := by rw [ha]
  have hyn : (y.num : ℚ) ≠ 0 := by
    have : (0 : ℚ) < y.num := by exact_mod_cast hn
    exact ne_of_gt this
  simp only [Frac.div, Frac.val, hs]
  push_cast
  rw [ha']
  field_simp

theorem Frac.div_den_pos (x y : Frac) (hx : 0 < x.den) (hn : 0 < y.num) :
    0 < (x.div y).den := by
  have : 0 < y.num.natAbs := Int.natAbs_pos.mpr (ne_of_gt hn)
  exact Nat.mul_pos hx this

/-- An integer below `2^53` converts to float64 exactly. -/
theorem round64_nat_exact (a : Nat) (h : a < 2 ^ 53) : (round64 ⟨(a : ℤ), 1⟩).val = a := by
  rcases Nat.eq_zero_or_pos a with h0 | h0
  · subst h0; simp [round64_zero]
  · obtain ⟨bl, bu⟩ := binade_spec a 1 h0 Nat.one_pos
    simp only [Nat.cast_one, div_one] at bl bu
    have haQ : (a : ℚ) < (2 : ℚ) ^ (53 : ℤ) := by
      have : ((a : ℕ) : ℚ) < ((2 ^ 53 : ℕ) : ℚ) := by exact_mod_cast h
      rwa [two_pow_cast] at this
    have h1Q : ((2 : ℚ) ^ (0 : ℤ)) ≤ (a : ℚ) := by
      simp only [zpow_zero]
      exact_mod_cast h0
    have e1 : binade a 1 < 53 :=
      (zpow_lt_zpow_iff_right₀ (by norm_num : (1 : ℚ) < 2)).mp (lt_of_le_of_lt bl haQ)
    have e0 : 0 < binade a 1 + 1 :=
      (zpow_lt_zpow_iff_right₀ (by norm_num : (1 : ℚ) < 2)).mp (lt_of_le_of_lt h1Q bu)
    have ht : ulpExp a 1 = binade a 1 - 52 := by
      unfold ulpExp
      exact max_eq_left (by omega)
    obtain ⟨k, hk⟩ := Int.eq_ofNat_of_zero_le (show 0 ≤ 52 - binade a 1 by omega)
    rw [round64_val_pos a 1 h0, ht]
    have t1 : (binade a 1 - 52).toNat = 0 := by omega
    have t2 : (-(binade a 1 - 52)).toNat = k := by omega
    rw [t1, t2]
    have : roundHalfEven (a * 2 ^ k) (1 * 2 ^ 0) = a * 2 ^ k := by
      have := roundHalfEven_exact (a * 2 ^ k) 1 Nat.one_pos
      simpa using this
    rw [this]
    have e : ((a * 2 ^ k : ℕ) : ℚ) = (a : ℚ) * ((2 ^ k : ℕ) : ℚ) := by push_cast; ring
    rw [e, mul_assoc, two_pow_cast_mul]
    have : binade a 1 - 52 + (k : ℤ) = 0 := by omega
    rw [this]
    simp

theorem f64OfInt_exact (n : ℤ) (h1 : -(2 ^ 53) < n) (h2 : n < 2 ^ 53) :
    (f64OfInt n).val = n := by
  unfold f64OfInt
  obtain ⟨a, rfl | rfl⟩ := Int.eq_nat_or_neg n
  · have hb : a < 2 ^ 53 := by omega
    rw [round64_nat_exact _ hb]
    simp
  · have hb : a < 2 ^ 53 := by omega
    rw [round64_val_neg, round64_nat_exact _ hb]
    simp

theorem f64OfInt_den_pos (n : ℤ) : 0 < (f64OfInt n).den := round64_den_pos _

theorem Frac.num_pos_of_val_pos (x : Frac) (h : 0 < x.val) : 0 < x.num := by
  unfold Frac.val at h
  by_contra hc
  have hn : (x.num : ℚ) ≤ 0 := by exact_mod_cast (not_lt.mp hc)
  have hd : (0 : ℚ) ≤ x.den := Nat.cast_nonneg _
  have := div_nonpos_of_nonpos_of_nonneg hn hd
  linarith

/-! ### Durations counted in a unit -/

theorem Duration.Hours_eq (d : Duration) : Duration.Hours d = Duration.inUnits Hour d := rfl

theorem Duration.Minutes_eq (d : Duration) : Duration.Minutes d = Duration.inUnits Minute d := rfl

theorem Duration.Seconds_eq (d : Duration) : Duration.Seconds d = Duration.inUnits Second d := rfl

/-- Truncated division by a positive unit. -/
theorem tdiv_facts (C d : ℤ) (hC : 0 < C) :
    C * d.tdiv C + d.tmod C = d ∧
    (0 ≤ d → 0 ≤ d.tmod C ∧ 0 ≤ d.tdiv C) ∧
    (d ≤ 0 → d.tmod C ≤ 0 ∧ d.tdiv C ≤ 0) ∧
    d.tmod C < C ∧ -C < d.tmod C := by
  have id1 := Int.tdiv_add_tmod d C
  have lt1 := Int.tmod_lt_of_pos d hC
  have pos : 0 ≤ d → 0 ≤ d.tmod C ∧ 0 ≤ d.tdiv C := fun h =>
    ⟨Int.tmod_nonneg C h, Int.tdiv_nonneg h (le_of_lt hC)⟩
  have neg : d ≤ 0 → d.tmod C ≤ 0 ∧ d.tdiv C ≤ 0 ∧ -C < d.tmod C := by
    intro h
    have he : 0 ≤ -d := by omega
    have id2 := Int.tdiv_add_tmod (-d) C
    have n1 := Int.neg_tdiv d C
    have a := Int.tmod_nonneg C he
    have b := Int.tdiv_nonneg he (le_of_lt hC)
    have c := Int.tmod_lt_of_pos (-d) hC
    have m : C * (-d).tdiv C = -(C * d.tdiv C) := by rw [n1]; ring
    refine ⟨?_, ?_, ?_⟩ <;> omega
  refine ⟨id1, pos, fun h => ⟨(neg h).1, (neg h).2.1⟩, lt1, ?_⟩
  rcases le_total 0 d with h | h
  · have := (pos h).1; omega
  · exact (neg h).2.2

/-- The quotient of an int64 duration by a unit of at least 2048 ns is below `2^53`. -/
theorem tdiv_bound (C d : ℤ) (hC : 2048 ≤ C) (hlo : minDuration ≤ d) (hhi : d ≤ maxDuration) :
    -(2 ^ 53) < d.tdiv C ∧ d.tdiv C < 2 ^ 53 := by
  obtain ⟨id1, pos, neg, lt1, gt1⟩ := tdiv_facts C d (by omega)
  have hlo' : (-9223372036854775808 : ℤ) ≤ d := by
    have : minDuration = (-9223372036854775808 : ℤ) := by norm_num [minDuration]
    rw [← this]; exact hlo
  have hhi' : d ≤ (9223372036854775807 : ℤ) := by
    have : maxDuration = (9223372036854775807 : ℤ) := by norm_num [maxDuration]
    rw [← this]; exact hhi
  constructor
  · by_contra hc
    have hc' : d.tdiv C ≤ -(2 ^ 53) := by omega
    have hd : d ≤ 0 := by
      by_contra hd
      have := (pos (by omega)).2
      omega
    have hm : C * d.tdiv C ≤ 2048 * (-(2 ^ 53)) := by
      have h1 : C * d.tdiv C ≤ C * (-(2 ^ 53)) :=
        mul_le_mul_of_nonneg_left hc' (by omega)
      have h2 : C * (-(2 ^ 53) : ℤ) ≤ 2048 * (-(2 ^ 53)) :=
        mul_le_mul_of_nonpos_right hC (by norm_num)
      exact le_trans h1 h2
    have := (neg hd).1
    norm_num at hm
    omega
  · by_contra hc
    have hc' : 2 ^ 53 ≤ d.tdiv C := by omega
    have hd : 0 ≤ d := by
      by_contra hd
      have := (neg (by omega)).2
      omega
    have hm : 2048 * 2 ^ 53 ≤ C * d.tdiv C :=
      mul_le_mul hC hc' (by norm_num) (by omega)
    have := (pos hd).1
    norm_num at hm
    omega

/-- The float64 quotient `float64(r) / float64(C)` of a remainder by its unit. -/
theorem fracPart_props (C r : ℤ) (hC0 : 0 < C) (hC : C < 2 ^ 53) (h1 : -C < r) (h2 : r < C) :
    0 < (f64Div (f64OfInt r) (f64OfInt C)).den ∧
    ((f64OfInt r).div (f64OfInt C)).val = (r : ℚ) / C ∧
    0 < ((f64OfInt r).div (f64OfInt C)).den ∧
    (f64Div (f64OfInt r) (f64OfInt C)).val ≤ 1 ∧
    -1 ≤ (f64Div (f64OfInt r) (f64OfInt C)).val ∧
    (0 ≤ r → 0 ≤ (f64Div (f64OfInt r) (f64OfInt C)).val) ∧
    (r ≤ 0 → (f64Div (f64OfInt r) (f64OfInt C)).val ≤ 0) := by
  have vC : (f64OfInt C).val = C := f64OfInt_exact C (by omega) hC
  have vr : (f64OfInt r).val = r := f64OfInt_exact r (by omega) (by omega)
  have hCQ : (0 : ℚ) < C := by exact_mod_cast hC0
  have nC : 0 < (f64OfInt C).num := Frac.num_pos_of_val_pos _ (by rw [vC]; exact hCQ)
  have qv : ((f64OfInt r).div (f64OfInt C)).val = (r : ℚ) / C := by
    rw [Frac.div_val _ _ (f64OfInt_den_pos r) (f64OfInt_den_pos C) nC, vC, vr]
  have qd : 0 < ((f64OfInt r).div (f64OfInt C)).den :=
    Frac.div_den_pos _ _ (f64OfInt_den_pos r) nC
  have one : (round64 ⟨1, 1⟩).val = 1 := by
    have := round64_nat_exact 1 (by norm_num)
    simpa using this
  have mone : (round64 ⟨-1, 1⟩).val = -1 := by
    have := round64_val_neg 1 1
    simp only [Nat.cast_one] at this
    rw [this, one]
  have zero : (round64 ⟨0, 1⟩).val = 0 := round64_zero _ rfl
  have r1 : (r : ℚ) < C := by exact_mod_cast h2
  have r2 : -(C : ℚ) < r := by exact_mod_cast h1
  refine ⟨round64_den_pos _, qv, qd, ?_, ?_, ?_, ?_⟩
  · rw [← one]
    apply round64_mono _ _ qd Nat.one_pos
    rw [qv]
    simp only [Frac.val, Int.cast_one, Nat.cast_one, div_one]
    rw [div_le_one hCQ]
    exact le_of_lt r1
  · rw [← mone]
    apply round64_mono _ _ Nat.one_pos qd
    rw [qv]
    simp only [Frac.val, Int.cast_neg, Int.cast_one, Nat.cast_one, div_one]
    rw [le_div_iff₀ hCQ]
    linarith
  · intro h
    rw [← zero]
    apply round64_mono _ _ Nat.one_pos qd
    rw [qv]
    simp only [Frac.val, Int.cast_zero, zero_div]
    exact div_nonneg (by exact_mod_cast h) (le_of_lt hCQ)
  · intro h
    rw [← zero]
    apply round64_mono _ _ qd Nat.one_pos
    rw [qv]
    simp only [Frac.val, Int.cast_zero, zero_div]
    exact div_nonpos_of_nonpos_of_nonneg (by exact_mod_cast h) (le_of_lt hCQ)

theorem fracPart_mono (C r1 r2 : ℤ) (hC0 : 0 < C) (hC : C < 2 ^ 53)
    (a1 : -C < r1) (a2 : r1 < C) (b1 : -C < r2) (b2 : r2 < C) (h : r1 ≤ r2) :
    (f64Div (f64OfInt r1) (f64OfInt C)).val ≤ (f64Div (f64OfInt r2) (f64OfInt C)).val := by
  obtain ⟨_, qv1, qd1, _⟩ := fracPart_props C r1 hC0 hC a1 a2
  obtain ⟨_, qv2, qd2, _⟩ := fracPart_props C r2 hC0 hC b1 b2
  apply round64_mono _ _ qd1 qd2
  rw [qv1, qv2]
  have hCQ : (0 : ℚ) < C := by exact_mod_cast hC0
  exact div_le_div_of_nonneg_right (by exact_mod_cast h) (le_of_lt hCQ)

theorem Duration.inUnits_den_pos (C d : ℤ) : 0 < (Duration.inUnits C d).den :=
  round64_den_pos _

/-- An int64 duration counted in hours, minutes or seconds is monotone in the
duration. -/
theorem Duration.inUnits_mono (C d1 d2 : ℤ) (hC1 : 2048 ≤ C) (hC2 : C < 2 ^ 53)
    (hlo : minDuration ≤ d1) (h : d1 ≤ d2) (hhi : d2 ≤ maxDuration) :
    (Duration.inUnits C d1).val ≤ (Duration.inUnits C d2).val := by
  have hC0 : 0 < C := by omega
  obtain ⟨i1, p1, n1, l1, g1⟩ := tdiv_facts C d1 hC0
  obtain ⟨i2, p2, n2, l2, g2⟩ := tdiv_facts C d2 hC0
  obtain ⟨x1, x2⟩ := tdiv_bound C d1 hC1 hlo (le_trans h hhi)
  obtain ⟨y1, y2⟩ := tdiv_bound C d2 hC1 (le_trans hlo h) hhi
  obtain ⟨fd1, _, _, fle1, fge1, fpos1, fneg1⟩ := fracPart_props C (d1.tmod C) hC0 hC2 g1 l1
  obtain ⟨fd2, _, _, fle2, fge2, fpos2, fneg2⟩ := fracPart_props C (d2.tmod C) hC0 hC2 g2 l2
  have v1 : (f64OfInt (d1.tdiv C)).val = d1.tdiv C := f64OfInt_exact _ x1 x2
  have v2 : (f64OfInt (d2.tdiv C)).val = d2.tdiv C := f64OfInt_exact _ y1 y2
  unfold Duration.inUnits f64Add
  apply round64_mono _ _ (Frac.add_den_pos _ _ (f64OfInt_den_pos _) fd1)
    (Frac.add_den_pos _ _ (f64OfInt_den_pos _) fd2)
  rw [Frac.add_val _ _ (f64OfInt_den_pos _) fd1, Frac.add_val _ _ (f64OfInt_den_pos _) fd2,
    v1, v2]
  rcases lt_trichotomy (d1.tdiv C) (d2.tdiv C) with hlt | heq | hgt
  · -- a later whole unit: the fractional parts differ by at most one
    have hstep : ((d1.tdiv C : ℤ) : ℚ) + 1 ≤ ((d2.tdiv C : ℤ) : ℚ) := by
      exact_mod_cast hlt
    rcases le_total 0 d1 with s | s
    · have := fpos2 (p2 (le_trans s h)).1
      linarith
    · have := fneg1 (n1 s).1
      linarith
  · -- the same whole unit: the remainders are ordered
    have hr : d1.tmod C ≤ d2.tmod C := by
      rw [heq] at i1
      omega
    have := fracPart_mono C _ _ hC0 hC2 g1 l1 g2 l2 hr
    rw [heq]
    linarith
  · -- impossible: truncated division is monotone
    exfalso
    have hm : C * (d2.tdiv C) + C ≤ C * (d1.tdiv C) := by
      have : C * (d2.tdiv C + 1) ≤ C * (d1.tdiv C) :=
        mul_le_mul_of_nonneg_left (by omega) (le_of_lt hC0)
      rw [mul_add, mul_one] at this
      exact this
    rcases le_total 0 d1 with s | s
    · have := (p1 s).1
      omega
    · have a := (n1 s).2
      have hd2 : d2 ≤ 0 := by
        by_contra hc
        have := (p2 (by omega)).2
        omega
      have := (n2 hd2).1
      omega

/-! ### The printed number is monotone in the duration -/

theorem f64ToInt_eq (x : Frac) :
    f64ToInt x = if 0 ≤ x.num then ⌊x.val⌋ else -⌊-x.val⌋ := by
  unfold f64ToInt Frac.val
  have hd : (0 : ℤ) ≤ (x.den : ℤ) := Int.natCast_nonneg _
  split_ifs with h
  · rw [Rat.floor_intCast_div_natCast, Int.tdiv_eq_ediv h hd]
  · have hn : 0 ≤ -x.num := by omega
    have e : -((x.num : ℚ) / (x.den : ℚ)) = ((-x.num : ℤ) : ℚ) / (x.den : ℚ) := by
      push_cast; ring
    rw [e, Rat.floor_intCast_div_natCast, ← Int.tdiv_eq_ediv hn hd, Int.neg_tdiv]
    simp

theorem Frac.val_nonneg_iff (x : Frac) (hx : 0 < x.den) : 0 ≤ x.val ↔ 0 ≤ x.num := by
  unfold Frac.val
  have hd : (0 : ℚ) < x.den := by exact_mod_cast hx
  rw [le_div_iff₀ hd, zero_mul]
  exact_mod_cast Iff.rfl

/-- The conversion `int(x)` is monotone. -/
theorem f64ToInt_mono (x y : Frac) (hx : 0 < x.den) (hy : 0 < y.den) (h : x.val ≤ y.val) :
    f64ToInt x ≤ f64ToInt y := by
  rw [f64ToInt_eq x, f64ToInt_eq y]
  have ix := Frac.val_nonneg_iff x hx
  have iy := Frac.val_nonneg_iff y hy
  split_ifs with a b b
  · exact Int.floor_le_floor h
  · have : 0 ≤ x.val := ix.mpr a
    have : ¬ 0 ≤ y.val := fun c => b (iy.mp c)
    linarith
  · have hxn : x.val < 0 := by
      by_contra c
      exact a (ix.mp (not_lt.mp c))
    have h1 : 0 ≤ ⌊-x.val⌋ := Int.floor_nonneg.mpr (by linarith)
    have h2 : 0 ≤ ⌊y.val⌋ := Int.floor_nonneg.mpr (iy.mpr b)
    omega
  · have := Int.floor_le_floor (neg_le_neg h)
    omega

theorem f64Div_mono (x y c : Frac) (hx : 0 < x.den) (hy : 0 < y.den) (hc : 0 < c.den)
    (hn : 0 < c.num) (h : x.val ≤ y.val) : (f64Div x c).val ≤ (f64Div y c).val := by
  unfold f64Div
  apply round64_mono _ _ (Frac.div_den_pos _ _ hx hn) (Frac.div_den_pos _ _ hy hn)
  rw [Frac.div_val _ _ hx hc hn, Frac.div_val _ _ hy hc hn]
  have hcv : 0 < c.val := by
    unfold Frac.val
    exact div_pos (by exact_mod_cast hn) (by exact_mod_cast hc)
  exact div_le_div_of_nonneg_right h (le_of_lt hcv)

theorem f64Div_den_pos (x c : Frac) : 0 < (f64Div x c).den := round64_den_pos _

theorem Since_range (now t : ℤ) :
    (minDuration : ℤ) ≤ Since now t ∧ (Since now t : ℤ) ≤ maxDuration := by
  unfold Since Time.Sub
  have h0 : (minDuration : ℤ) ≤ maxDuration := by decide
  split_ifs with a b
  · exact ⟨le_rfl, h0⟩
  · exact ⟨h0, le_rfl⟩
  · exact ⟨not_lt.mp a, not_lt.mp b⟩

/-- In each branch of `getAge` the printed number is monotone in the duration. -/
theorem ageNumber_mono (u : AgeUnit) (d1 d2 : Duration)
    (hlo : minDuration ≤ d1) (h : d1 ≤ d2) (hhi : d2 ≤ maxDuration) :
    ageNumber u d1 ≤ ageNumber u d2 := by
  have hH : (Duration.Hours d1).val ≤ (Duration.Hours d2).val := by
    rw [Duration.Hours_eq, Duration.Hours_eq]
    exact Duration.inUnits_mono Hour d1 d2 (by decide) (by decide) hlo h hhi
  have hM : (Duration.Minutes d1).val ≤ (Duration.Minutes d2).val := by
    rw [Duration.Minutes_eq, Duration.Minutes_eq]
    exact Duration.inUnits_mono Minute d1 d2 (by decide) (by decide) hlo h hhi
  have hS : (Duration.Seconds d1).val ≤ (Duration.Seconds d2).val := by
    rw [Duration.Seconds_eq, Duration.Seconds_eq]
    exact Duration.inUnits_mono Second d1 d2 (by decide) (by decide) hlo h hhi
  have dH : ∀ d, 0 < (Duration.Hours d).den := fun d => round64_den_pos _
  have dM : ∀ d, 0 < (Duration.Minutes d).den := fun d => round64_den_pos _
  have dS : ∀ d, 0 < (Duration.Seconds d).den := fun d => round64_den_pos _
  cases u
  · exact f64ToInt_mono _ _ (f64Div_den_pos _ _) (f64Div_den_pos _ _)
      (f64Div_mono _ _ _ (dH d1) (dH d2) (by decide) (by decide) hH)
  · exact f64ToInt_mono _ _ (f64Div_den_pos _ _) (f64Div_den_pos _ _)
      (f64Div_mono _ _ _ (dH d1) (dH d2) (by decide) (by decide) hH)
  · exact f64ToInt_mono _ _ (f64Div_den_pos _ _) (f64Div_den_pos _ _)
      (f64Div_mono _ _ _ (dH d1) (dH d2) (by decide) (by decide) hH)
  · exact f64ToInt_mono _ _ (dH d1) (dH d2) hH
  · exact f64ToInt_mono _ _ (dM d1) (dM d2) hM
  · exact f64ToInt_mono _ _ (dS d1) (dS d2) hS

/-- The string `getAge` returns: the number of the branch, then its suffix. -/
theorem getAge_eq (now creationTime : Time) :
    getAge now creationTime
      = formatInt (ageNumber (ageUnit (Since now creationTime)) (Since now creationTime))
          ++ (ageUnit (Since now creationTime)).suffix := by
  unfold getAge ageUnit
  simp only
  split_ifs <;> rfl

/-! ### Reading a printed age back -/

theorem digitChar_facts : ∀ k, k < 10 →
    (Nat.digitChar k).isDigit = true ∧ (Nat.digitChar k).toNat - 48 = k ∧
      Nat.digitChar k ≠ '-' := by
  decide

theorem digitsVal_append_singleton (ds : List Char) (c : Char) :
    digitsVal (ds ++ [c]) = 10 * digitsVal ds + (c.toNat - 48) := by
  simp [digitsVal, List.foldl_append]

/-- The digits `Nat.toDigitsCore` puts in front of its accumulator denote the
number printed. -/
theorem toDigitsCore_spec : ∀ (fuel n : Nat) (acc : List Char), n < fuel →
    ∃ ds, Nat.toDigitsCore 10 fuel n acc = ds ++ acc ∧ ds ≠ [] ∧
      (∀ c ∈ ds, c.isDigit = true ∧ c ≠ '-') ∧ digitsVal ds = n := by
  intro fuel
  induction fuel with
  | zero => intro n acc h; omega
  | succ f ih =>
    intro n acc h
    have hd := digitChar_facts (n % 10) (Nat.mod_lt _ (by norm_num))
    unfold Nat.toDigitsCore
    simp only
    by_cases h0 : n / 10 = 0
    · simp only [h0, if_true]
      refine ⟨[Nat.digitChar (n % 10)], rfl, by simp, ?_, ?_⟩
      · intro c hc
        simp only [List.mem_singleton] at hc
        subst hc
        exact ⟨hd.1, hd.2.2⟩
      · have := digitsVal_append_singleton [] (Nat.digitChar (n % 10))
        simp only [List.nil_append] at this
        rw [this, hd.2.1]
        simp only [digitsVal, List.foldl_nil]
        omega
    · simp only [h0, if_false]
      have hlt : n / 10 < f := by omega
      obtain ⟨ds, e, hne, hall, hval⟩ := ih (n / 10) (Nat.digitChar (n % 10) :: acc) hlt
      refine ⟨ds ++ [Nat.digitChar (n % 10)], by rw [e]; simp, by simp, ?_, ?_⟩
      · intro c hc
        rcases List.mem_append.mp hc with hc | hc
        · exact hall c hc
        · simp only [List.mem_singleton] at hc
          subst hc
          exact ⟨hd.1, hd.2.2⟩
      · rw [digitsVal_append_singleton, hval, hd.2.1]
        omega

theorem toDigits_spec (n : Nat) :
    Nat.toDigits 10 n ≠ [] ∧ (∀ c ∈ Nat.toDigits 10 n, c.isDigit = true ∧ c ≠ '-') ∧
      digitsVal (Nat.toDigits 10 n) = n := by
  obtain ⟨ds, e, hne, hall, hval⟩ := toDigitsCore_spec (n + 1) n [] (Nat.lt_succ_self n)
  unfold Nat.toDigits
  rw [e, List.append_nil]
  exact ⟨hne, hall, hval⟩

theorem formatInt_data (n : Int) :
    (formatInt n).data =
      if n < 0 then '-' :: Nat.toDigits 10 n.natAbs else Nat.toDigits 10 n.natAbs := by
  unfold formatInt
  split_ifs
  · rw [String.data_append]; rfl
  · rfl

theorem formatInt_numeric (n : Int) : ∀ c ∈ (formatInt n).data, numeric c := by
  intro c hc
  rw [formatInt_data] at hc
  have hs := (toDigits_spec n.natAbs).2.1
  split_ifs at hc
  · rcases List.mem_cons.mp hc with h | h
    · exact Or.inr h
    · exact Or.inl (hs c h).1
  · exact Or.inl (hs c hc).1

/-- The `%d` verb is injective. -/
theorem formatInt_injective (a b : Int) (h : (formatInt a).data = (formatInt b).data) :
    a = b := by
  rw [formatInt_data, formatInt_data] at h
  obtain ⟨nea, alla, vala⟩ := toDigits_spec a.natAbs
  obtain ⟨neb, allb, valb⟩ := toDigits_spec b.natAbs
  split_ifs at h with ha hb hb
  · have : Nat.toDigits 10 a.natAbs = Nat.toDigits 10 b.natAbs := List.tail_eq_of_cons_eq h
    have : a.natAbs = b.natAbs := by rw [← vala, ← valb, this]
    omega
  · exfalso
    have hm : '-' ∈ Nat.toDigits 10 b.natAbs := by rw [← h]; exact List.mem_cons_self _ _
    exact (allb _ hm).2 rfl
  · exfalso
    have hm : '-' ∈ Nat.toDigits 10 a.natAbs := by rw [h]; exact List.mem_cons_self _ _
    exact (alla _ hm).2 rfl
  · have : a.natAbs = b.natAbs := by rw [← vala, ← valb, h]
    omega

/-- A run of numeric characters followed by a suffix that starts with another
character splits in one way only. -/
theorem numeric_prefix_unique : ∀ (l1 l2 s1 s2 : List Char),
    (∀ c ∈ l1, numeric c) → (∀ c ∈ l2, numeric c) →
    (∀ c, s1.head? = some c → ¬ numeric c) → (∀ c, s2.head? = some c → ¬ numeric c) →
    s1 ≠ [] → s2 ≠ [] →
    l1 ++ s1 = l2 ++ s2 → l1 = l2 ∧ s1 = s2 := by
  intro l1
  induction l1 with
  | nil =>
    intro l2 s1 s2 _ h2 n1 _ _ _ h
    cases l2 with
    | nil => exact ⟨rfl, by simpa using h⟩
    | cons c l2 =>
      exfalso
      simp only [List.nil_append, List.cons_append] at h
      exact n1 c (by rw [h]; rfl) (h2 c (List.mem_cons_self _ _))
  | cons x l1 ih =>
    intro l2 s1 s2 h1 h2 n1 n2 e1 e2 h
    cases l2 with
    | nil =>
      exfalso
      simp only [List.nil_append, List.cons_append] at h
      exact n2 x (by rw [← h]; rfl) (h1 x (List.mem_cons_self _ _))
    | cons c l2 =>
      simp only [List.cons_append, List.cons.injEq] at h
      obtain ⟨hx, hrest⟩ := h
      obtain ⟨a, b⟩ := ih l2 s1 s2 (fun c hc => h1 c (List.mem_cons_of_mem _ hc))
        (fun c hc => h2 c (List.mem_cons_of_mem _ hc)) n1 n2 e1 e2 hrest
      exact ⟨by rw [hx, a], b⟩

theorem suffix_not_numeric (u : String) (hu : u ∈ ["s", "m", "h", "d", "mo", "y"]) :
    u.data ≠ [] ∧ ∀ c, u.data.head? = some c → ¬ numeric c := by
  simp only [List.mem_cons, List.mem_singleton, List.not_mem_nil, or_false] at hu
  unfold numeric
  rcases hu with h | h | h | h | h | h <;> subst h <;> decide

theorem AgeUnit.suffix_mem (u : AgeUnit) : u.suffix ∈ ["s", "m", "h", "d", "mo", "y"] := by
  cases u <;> decide

theorem AgeUnit.suffix_injective (u v : AgeUnit) (h : u.suffix = v.suffix) : u = v := by
  cases u <;> cases v <;> first | rfl | (exfalso; revert h; decide)

/-- A printed age determines its number and its suffix. -/
theorem printed_age_unique (a b : Int) (u v : String)
    (hu : u ∈ ["s", "m", "h", "d", "mo", "y"]) (hv : v ∈ ["s", "m", "h", "d", "mo", "y"])
    (h : formatInt a ++ u = formatInt b ++ v) : a = b ∧ u = v := by
  have hd : (formatInt a).data ++ u.data = (formatInt b).data ++ v.data := by
    rw [← String.data_append, ← String.data_append, h]
  obtain ⟨u1, u2⟩ := suffix_not_numeric u hu
  obtain ⟨v1, v2⟩ := suffix_not_numeric v hv
  obtain ⟨e1, e2⟩ := numeric_prefix_unique _ _ _ _ (formatInt_numeric a) (formatInt_numeric b)
    u2 v2 u1 v1 hd
  exact ⟨formatInt_injective a b e1, String.ext e2⟩

/-! ## Proofs: where the branches of getAge switch -/

theorem f64Gt_iff (x y : Frac) (hx : 0 < x.den) (hy : 0 < y.den) :
    f64Gt x y = true ↔ y.val < x.val := by
  unfold f64Gt Frac.val
  have a : (0 : ℚ) < x.den := by exact_mod_cast hx
  have b : (0 : ℚ) < y.den := by exact_mod_cast hy
  rw [decide_eq_true_iff, div_lt_div_iff₀ b a]
  constructor
  · intro h; exact_mod_cast h
  · intro h; exact_mod_cast h

/-- A float64 test `inUnits C d > c` that holds at `d1` holds from `d1` on. -/
theorem f64Gt_inUnits_of_ge (C : ℤ) (c : Frac) (d1 d2 : Duration) (hc : 0 < c.den)
    (hC1 : 2048 ≤ C) (hC2 : C < 2 ^ 53)
    (hlo : minDuration ≤ d1) (h : d1 ≤ d2) (hhi : d2 ≤ maxDuration)
    (h1 : f64Gt (Duration.inUnits C d1) c = true) : f64Gt (Duration.inUnits C d2) c = true := by
  rw [f64Gt_iff _ _ (Duration.inUnits_den_pos C _) hc] at h1 ⊢
  exact lt_of_lt_of_le h1 (Duration.inUnits_mono C d1 d2 hC1 hC2 hlo h hhi)

/-- A float64 test `inUnits C d > c` that fails at `d2` fails up to `d2`. -/
theorem f64Gt_inUnits_of_le (C : ℤ) (c : Frac) (d1 d2 : Duration) (hc : 0 < c.den)
    (hC1 : 2048 ≤ C) (hC2 : C < 2 ^ 53)
    (hlo : minDuration ≤ d1) (h : d1 ≤ d2) (hhi : d2 ≤ maxDuration)
    (h2 : f64Gt (Duration.inUnits C d2) c = false) : f64Gt (Duration.inUnits C d1) c = false := by
  rw [← Bool.not_eq_true] at h2 ⊢
  exact fun h1 => h2 (f64Gt_inUnits_of_ge C c d1 d2 hc hC1 hC2 hlo h hhi h1)

/-- The branch `getAge` takes, for every int64 duration: the year branch starts
four nanoseconds past 365 days, every other branch one nanosecond past its
threshold. -/
theorem ageUnit_eq (d : Duration) (hlo : minDuration ≤ d) (hhi : d ≤ maxDuration) :
    ageUnit d =
      if 365 * 24 * Hour + 4 ≤ d then AgeUnit.years
      else if 30 * 24 * Hour + 1 ≤ d then AgeUnit.months
      else if 24 * Hour + 1 ≤ d then AgeUnit.days
      else if Hour + 1 ≤ d then AgeUnit.hours
      else if Minute + 1 ≤ d then AgeUnit.minutes
      else AgeUnit.seconds := by
  have up : ∀ (C : ℤ) (k : ℤ) (t : Duration), 2048 ≤ C → C < 2 ^ 53 →
      minDuration ≤ t → f64Gt (Duration.inUnits C t) (f64OfInt k) = true →
      t ≤ d → f64Gt (Duration.inUnits C d) (f64OfInt k) = true :=
    fun C k t a b c e f =>
      f64Gt_inUnits_of_ge C _ t d (f64OfInt_den_pos k) a b c f hhi e
  have down : ∀ (C : ℤ) (k : ℤ) (t : Duration), 2048 ≤ C → C < 2 ^ 53 →
      t ≤ maxDuration → f64Gt (Duration.inUnits C t) (f64OfInt k) = false →
      d ≤ t → f64Gt (Duration.inUnits C d) (f64OfInt k) = false :=
    fun C k t a b c e f =>
      f64Gt_inUnits_of_le C _ d t (f64OfInt_den_pos k) a b hlo f c e
  unfold ageUnit
  simp only [Duration.Hours_eq, Duration.Minutes_eq]
  by_cases h1 : 365 * 24 * Hour + 4 ≤ d
  · rw [if_pos h1, if_pos (up Hour _ (365 * 24 * Hour + 4) (by decide) (by decide) (by decide)
      (by decide) h1)]
  rw [if_neg h1, if_neg (by
    rw [Bool.not_eq_true]
    exact down Hour _ (365 * 24 * Hour + 3) (by decide) (by decide) (by decide) (by decide)
      (Int.lt_add_one_iff.mp (by simpa [add_assoc] using not_le.mp h1)))]
  by_cases h2 : 30 * 24 * Hour + 1 ≤ d
  · rw [if_pos h2, if_pos (up Hour _ (30 * 24 * Hour + 1) (by decide) (by decide) (by decide)
      (by decide) h2)]
  rw [if_neg h2, if_neg (by
    rw [Bool.not_eq_true]
    exact down Hour _ (30 * 24 * Hour) (by decide) (by decide) (by decide) (by decide)
      (Int.lt_add_one_iff.mp (not_le.mp h2)))]
  by_cases h3 : 24 * Hour + 1 ≤ d
  · rw [if_pos h3, if_pos (up Hour _ (24 * Hour + 1) (by decide) (by decide) (by decide)
      (by decide) h3)]
  rw [if_neg h3, if_neg (by
    rw [Bool.not_eq_true]
    exact down Hour _ (24 * Hour) (by decide) (by decide) (by decide) (by decide)
      (Int.lt_add_one_iff.mp (not_le.mp h3)))]
  by_cases h4 : Hour + 1 ≤ d
  · rw [if_pos h4, if_pos (up Hour _ (Hour + 1) (by decide) (by decide) (by decide)
      (by decide) h4)]
  rw [if_neg h4, if_neg (by
    rw [Bool.not_eq_true]
    exact down Hour _ Hour (by decide) (by decide) (by decide) (by decide)
      (Int.lt_add_one_iff.mp (not_le.mp h4)))]
  by_cases h5 : Minute + 1 ≤ d
  · rw [if_pos h5, if_pos (up Minute _ (Minute + 1) (by decide) (by decide) (by decide)
      (by decide) h5)]
  rw [if_neg h5, if_neg (by
    rw [Bool.not_eq_true]
    exact down Minute _ Minute (by decide) (by decide) (by decide) (by decide)
      (Int.lt_add_one_iff.mp (not_le.mp h5)))]

/-! ## Proofs: durations away from the rounding points -/

/-- Rounding depends on the value rounded only. -/
theorem round64_val_congr (x y : Frac) (hx : 0 < x.den) (hy : 0 < y.den)
    (h : x.val = y.val) : (round64 x).val = (round64 y).val :=
  le_antisymm (round64_mono x y hx hy (le_of_eq h)) (round64_mono y x hy hx (le_of_eq h.symm))

/-- A dyadic fraction with a numerator below `2^53` is a float64: rounding
leaves it as it is. -/
theorem round64_dyadic (a j : Nat) (ha : a < 2 ^ 53) (hj : j ≤ 1074) :
    (round64 ⟨(a : ℤ), 2 ^ j⟩).val = (a : ℚ) / (2 : ℚ) ^ (j : ℤ) := by
  rcases Nat.eq_zero_or_pos a with h0 | h0
  · subst h0; simp [round64_zero]
  · obtain ⟨bl, bu⟩ := binade_spec a (2 ^ j) h0 (Nat.two_pow_pos j)
    rw [two_pow_cast] at bl bu
    have hpos : (0 : ℚ) < (2 : ℚ) ^ (j : ℤ) := two_zpow_pos _
    have haQ : (a : ℚ) < (2 : ℚ) ^ (53 : ℤ) := by
      have : ((a : ℕ) : ℚ) < ((2 ^ 53 : ℕ) : ℚ) := by exact_mod_cast ha
      rwa [two_pow_cast] at this
    have hlt : (2 : ℚ) ^ binade a (2 ^ j) < (2 : ℚ) ^ ((53 : ℤ) - j) := by
      rw [zpow_sub₀ (by norm_num : (2 : ℚ) ≠ 0)]
      exact lt_of_le_of_lt bl (div_lt_div_of_pos_right haQ hpos)
    have e1 : binade a (2 ^ j) < 53 - j :=
      (zpow_lt_zpow_iff_right₀ (by norm_num : (1 : ℚ) < 2)).mp hlt
    have ht : ulpExp a (2 ^ j) ≤ -(j : ℤ) := by
      unfold ulpExp
      exact max_le (by omega) (by omega)
    obtain ⟨n, hn⟩ := Int.eq_ofNat_of_zero_le (show 0 ≤ -(j : ℤ) - ulpExp a (2 ^ j) by omega)
    rw [round64_val_pos a (2 ^ j) h0]
    have t1 : (ulpExp a (2 ^ j)).toNat = 0 := by omega
    have t2 : (-(ulpExp a (2 ^ j))).toNat = n + j := by omega
    rw [t1, t2]
    have hr : roundHalfEven (a * 2 ^ (n + j)) (2 ^ j * 2 ^ 0) = a * 2 ^ n := by
      have := roundHalfEven_exact (a * 2 ^ n) (2 ^ j) (Nat.two_pow_pos j)
      rw [pow_zero, mul_one, pow_add, ← mul_assoc]
      exact this
    rw [hr]
    have e : ((a * 2 ^ n : ℕ) : ℚ) = (a : ℚ) * ((2 ^ n : ℕ) : ℚ) := by push_cast; ring
    rw [e, mul_assoc, two_pow_cast_mul]
    have : ulpExp a (2 ^ j) + (n : ℤ) = -(j : ℤ) := by omega
    rw [this, zpow_neg]
    rfl

theorem Frac.val_dyadic (a j : Nat) :
    (Frac.mk (a : ℤ) (2 ^ j)).val = (a : ℚ) / (2 : ℚ) ^ (j : ℤ) := by
  simp [Frac.val, zpow_natCast]

/-- Rounding does not cross a float64 from below. -/
theorem round64_le_dyadic (x : Frac) (hx : 0 < x.den) (a j : Nat) (ha : a < 2 ^ 53)
    (hj : j ≤ 1074) (h : x.val ≤ (a : ℚ) / (2 : ℚ) ^ (j : ℤ)) :
    (round64 x).val ≤ (a : ℚ) / (2 : ℚ) ^ (j : ℤ) := by
  rw [← round64_dyadic a j ha hj]
  apply round64_mono _ _ hx (Nat.two_pow_pos j)
  rw [Frac.val_dyadic]
  exact h

/-- Rounding does not cross a float64 from above. -/
theorem round64_ge_dyadic (x : Frac) (hx : 0 < x.den) (a j : Nat) (ha : a < 2 ^ 53)
    (hj : j ≤ 1074) (h : (a : ℚ) / (2 : ℚ) ^ (j : ℤ) ≤ x.val) :
    (a : ℚ) / (2 : ℚ) ^ (j : ℤ) ≤ (round64 x).val := by
  rw [← round64_dyadic a j ha hj]
  apply round64_mono _ _ (Nat.two_pow_pos j) hx
  rw [Frac.val_dyadic]
  exact h

/-- A non-negative int64 duration counted in a unit: the float64 count lies
between the whole units and the next whole unit less `2^-j`, when the
remainder leaves that much room. -/
theorem Duration.inUnits_bounds (C d : ℤ) (j : Nat) (hC1 : 2048 ≤ C) (hC2 : C < 2 ^ 53)
    (hd0 : 0 ≤ d) (hj : j ≤ 52)
    (hgap : (d % C) * 2 ^ j ≤ C * (2 ^ j - 1))
    (hh : (d / C + 1) * 2 ^ j ≤ 2 ^ 53) :
    ((d / C : ℤ) : ℚ) ≤ (Duration.inUnits C d).val ∧
    (Duration.inUnits C d).val ≤ ((d / C : ℤ) : ℚ) + 1 - 1 / (2 : ℚ) ^ (j : ℤ) := by
  have hC0 : 0 < C := by omega
  have hCQ : (0 : ℚ) < C := by exact_mod_cast hC0
  have ediv : d.tdiv C = d / C := Int.tdiv_eq_ediv hd0 (le_of_lt hC0)
  have emod : d.tmod C = d % C := Int.tmod_eq_emod hd0 (le_of_lt hC0)
  have hq0 : 0 ≤ d / C := Int.ediv_nonneg hd0 (le_of_lt hC0)
  have hr0 : 0 ≤ d % C := Int.emod_nonneg d (ne_of_gt hC0)
  have hr1 : d % C < C := Int.emod_lt_of_pos d hC0
  have h2j : (1 : ℤ) ≤ 2 ^ j := one_le_pow₀ (by norm_num)
  have hqlt : d / C < 2 ^ 53 := by nlinarith
  have hpj : (0 : ℚ) < (2 : ℚ) ^ (j : ℤ) := two_zpow_pos _
  obtain ⟨fd, qv, qd, _, _, fpos, _⟩ := fracPart_props C (d % C) hC0 hC2 (by omega) hr1
  have vq : (f64OfInt (d / C)).val = ((d / C : ℤ) : ℚ) := f64OfInt_exact _ (by omega) hqlt
  -- the fractional part stays below 1 - 2^-j
  have fle : (f64Div (f64OfInt (d % C)) (f64OfInt C)).val ≤ 1 - 1 / (2 : ℚ) ^ (j : ℤ) := by
    have hlt : 2 ^ j - 1 < 2 ^ 53 := by
      have : 2 ^ j ≤ 2 ^ 52 := Nat.pow_le_pow_right (by norm_num) hj
      omega
    have := round64_le_dyadic ((f64OfInt (d % C)).div (f64OfInt C)) qd (2 ^ j - 1) j hlt
      (by omega) (by
        rw [qv, div_le_div_iff₀ hCQ hpj]
        have hc : ((2 ^ j - 1 : ℕ) : ℚ) = (2 : ℚ) ^ (j : ℤ) - 1 := by
          rw [Nat.cast_sub (Nat.one_le_two_pow), zpow_natCast]; push_cast; rfl
        rw [hc]
        have : (((d % C) * 2 ^ j : ℤ) : ℚ) ≤ ((C * (2 ^ j - 1) : ℤ) : ℚ) := by
          exact_mod_cast hgap
        push_cast at this
        rw [zpow_natCast]
        linarith)
    unfold f64Div
    refine le_trans this (le_of_eq ?_)
    have hc : ((2 ^ j - 1 : ℕ) : ℚ) = (2 : ℚ) ^ (j : ℤ) - 1 := by
      rw [Nat.cast_sub (Nat.one_le_two_pow), zpow_natCast]; push_cast; rfl
    rw [hc]
    field_simp
  have f0 := fpos hr0
  have sd : 0 < ((f64OfInt (d / C)).add (f64Div (f64OfInt (d % C)) (f64OfInt C))).den :=
    Frac.add_den_pos _ _ (f64OfInt_den_pos _) fd
  have sv := Frac.add_val (f64OfInt (d / C)) (f64Div (f64OfInt (d % C)) (f64OfInt C))
    (f64OfInt_den_pos _) fd
  rw [vq] at sv
  obtain ⟨n, hn⟩ := Int.eq_ofNat_of_zero_le hq0
  have hnQ : ((d / C : ℤ) : ℚ) = (n : ℚ) := by rw [hn]; simp
  unfold Duration.inUnits f64Add
  rw [ediv, emod]
  constructor
  · have := round64_ge_dyadic _ sd n 0 (by omega) (by omega) (by
      rw [sv, hnQ]; simp only [Nat.cast_zero, zpow_zero, div_one]; linarith)
    simp only [Nat.cast_zero, zpow_zero, div_one] at this
    rw [hnQ]
    exact this
  · have hnat : (n + 1) * 2 ^ j ≤ 2 ^ 53 := by
      have : (((n + 1) * 2 ^ j : ℕ) : ℤ) ≤ ((2 ^ 53 : ℕ) : ℤ) := by
        push_cast; rw [← hn]; exact hh
      exact_mod_cast this
    have hpos : 1 ≤ (n + 1) * 2 ^ j := Nat.one_le_iff_ne_zero.mpr (by positivity)
    have hc : (((n + 1) * 2 ^ j - 1 : ℕ) : ℚ) = ((n : ℚ) + 1) * (2 : ℚ) ^ (j : ℤ) - 1 := by
      rw [Nat.cast_sub hpos, zpow_natCast]; push_cast; rfl
    have := round64_le_dyadic _ sd ((n + 1) * 2 ^ j - 1) j (by omega) (by omega) (by
      rw [sv, hnQ, hc, le_div_iff₀ hpj]
      have : (f64Div (f64OfInt (d % C)) (f64OfInt C)).val * (2 : ℚ) ^ (j : ℤ)
          ≤ (1 - 1 / (2 : ℚ) ^ (j : ℤ)) * (2 : ℚ) ^ (j : ℤ) :=
        mul_le_mul_of_nonneg_right fle (le_of_lt hpj)
      have e : (1 - 1 / (2 : ℚ) ^ (j : ℤ)) * (2 : ℚ) ^ (j : ℤ) = (2 : ℚ) ^ (j : ℤ) - 1 := by
        field_simp
      rw [e] at this
      linarith)
    refine le_trans this (le_of_eq ?_)
    rw [hc, hnQ]
    field_simp

/-- A float64 quotient by a whole constant `cv ≤ 2^i`: a count between `k * cv`
and `(k + 1) * cv - 2^-j` divides to a value from `k` to `k + 1 - 2^-(i+j)`. -/
theorem f64Div_bounds (x c : Frac) (cv i j k : Nat) (hx : 0 < x.den) (hc : 0 < c.den)
    (hcv : c.val = cv) (hcpos : 0 < cv) (hci : cv ≤ 2 ^ i)
    (hlo : (k : ℚ) * cv ≤ x.val) (hhi : x.val ≤ ((k : ℚ) + 1) * cv - 1 / (2 : ℚ) ^ (j : ℤ))
    (hk : (k + 1) * 2 ^ (i + j) ≤ 2 ^ 53) (hij : i + j ≤ 1074) :
    (k : ℚ) ≤ (f64Div x c).val ∧ (f64Div x c).val < (k : ℚ) + 1 := by
  have hcQ : (0 : ℚ) < cv := by exact_mod_cast hcpos
  have hn : 0 < c.num := Frac.num_pos_of_val_pos c (by rw [hcv]; exact hcQ)
  have qd := Frac.div_den_pos x c hx hn
  have qv : (x.div c).val = x.val / cv := by rw [Frac.div_val x c hx hc hn, hcv]
  have hpj : (0 : ℚ) < (2 : ℚ) ^ (j : ℤ) := two_zpow_pos _
  have hpij : (0 : ℚ) < (2 : ℚ) ^ ((i + j : ℕ) : ℤ) := two_zpow_pos _
  have hciQ : (cv : ℚ) ≤ (2 : ℚ) ^ (i : ℤ) := by
    have : ((cv : ℕ) : ℚ) ≤ ((2 ^ i : ℕ) : ℚ) := by exact_mod_cast hci
    rwa [two_pow_cast] at this
  have hsplit : (2 : ℚ) ^ ((i + j : ℕ) : ℤ) = (2 : ℚ) ^ (i : ℤ) * (2 : ℚ) ^ (j : ℤ) := by
    rw [← zpow_add₀ (by norm_num : (2 : ℚ) ≠ 0)]; push_cast; rfl
  have hpos : 1 ≤ (k + 1) * 2 ^ (i + j) := Nat.one_le_iff_ne_zero.mpr (by positivity)
  have hcast : (((k + 1) * 2 ^ (i + j) - 1 : ℕ) : ℚ)
      = ((k : ℚ) + 1) * (2 : ℚ) ^ ((i + j : ℕ) : ℤ) - 1 := by
    rw [Nat.cast_sub hpos, zpow_natCast]; push_cast; rfl
  unfold f64Div
  constructor
  · have := round64_ge_dyadic _ qd k 0 (by
        have : 1 ≤ 2 ^ (i + j) := Nat.one_le_two_pow
        nlinarith) (by omega) (by
      rw [qv]; simp only [Nat.cast_zero, zpow_zero, div_one]
      rw [le_div_iff₀ hcQ]; exact hlo)
    simpa using this
  · have := round64_le_dyadic _ qd ((k + 1) * 2 ^ (i + j) - 1) (i + j) (by omega) hij (by
      rw [qv, hcast, div_le_div_iff₀ hcQ hpij]
      -- x * 2^(i+j) ≤ ((k+1) 2^(i+j) - 1) * cv
      have h1 : x.val * (2 : ℚ) ^ ((i + j : ℕ) : ℤ)
          ≤ (((k : ℚ) + 1) * cv - 1 / (2 : ℚ) ^ (j : ℤ)) * (2 : ℚ) ^ ((i + j : ℕ) : ℤ) :=
        mul_le_mul_of_nonneg_right hhi (le_of_lt hpij)
      have h2 : (1 / (2 : ℚ) ^ (j : ℤ)) * (2 : ℚ) ^ ((i + j : ℕ) : ℤ) = (2 : ℚ) ^ (i : ℤ) := by
        rw [hsplit]; field_simp
      have h3 : (((k : ℚ) + 1) * cv - 1 / (2 : ℚ) ^ (j : ℤ)) * (2 : ℚ) ^ ((i + j : ℕ) : ℤ)
          = ((k : ℚ) + 1) * cv * (2 : ℚ) ^ ((i + j : ℕ) : ℤ) - (2 : ℚ) ^ (i : ℤ) := by
        rw [sub_mul, h2]
      rw [h3] at h1
      linarith)
    refine lt_of_le_of_lt this ?_
    rw [hcast, div_lt_iff₀ hpij]
    linarith

/-- The conversion `int(x)` of a float64 between `k` and `k + 1`. -/
theorem f64ToInt_of_bounds (x : Frac) (hx : 0 < x.den) (k : Nat) (h1 : (k : ℚ) ≤ x.val)
    (h2 : x.val < (k : ℚ) + 1) : f64ToInt x = k := by
  have h0 : 0 ≤ x.val := le_trans (Nat.cast_nonneg k) h1
  rw [f64ToInt_eq, if_pos ((Frac.val_nonneg_iff x hx).mp h0)]
  rw [Int.floor_eq_iff]
  exact ⟨by exact_mod_cast h1, by exact_mod_cast h2⟩

theorem Hour_eq : Hour = (3600000000000 : ℤ) := by decide

theorem Minute_eq : Minute = (60000000000 : ℤ) := by decide

theorem Second_eq : Second = (1000000000 : ℤ) := by decide

theorem maxDuration_eq : maxDuration = (9223372036854775807 : ℤ) := by decide

/-- The number a float64 quotient of the hour count prints, for a divisor
`cv ≤ 2^14` hours. -/
theorem hoursQuotient_number (d : ℤ) (cv k : Nat) (hcv0 : 0 < cv) (hcv : cv ≤ 2 ^ 14)
    (hk : k ≤ 131071)
    (hb : ((d / 3600000000000 : ℤ) : ℚ) ≤ (Duration.Hours d).val ∧
      (Duration.Hours d).val ≤ ((d / 3600000000000 : ℤ) : ℚ) + 1 - 1 / (2 : ℚ) ^ ((22 : ℕ) : ℤ))
    (h1 : (k : ℤ) * cv ≤ d / 3600000000000)
    (h2 : d / 3600000000000 + 1 ≤ ((k : ℤ) + 1) * cv) :
    f64ToInt (f64Div (Duration.Hours d) (f64OfInt (cv : ℤ))) = k := by
  have hval : (f64OfInt (cv : ℤ)).val = (cv : ℚ) := by
    have hlt : (cv : ℤ) < 2 ^ 53 := by
      have : (cv : ℤ) ≤ 2 ^ 14 := by exact_mod_cast hcv
      omega
    have := f64OfInt_exact (cv : ℤ) (by omega) hlt
    simpa using this
  have h1Q : ((k : ℤ) : ℚ) * ((cv : ℤ) : ℚ) ≤ ((d / 3600000000000 : ℤ) : ℚ) := by
    exact_mod_cast h1
  have h2Q : ((d / 3600000000000 : ℤ) : ℚ) + 1 ≤ (((k : ℤ) : ℚ) + 1) * ((cv : ℤ) : ℚ) := by
    exact_mod_cast h2
  simp only [Int.cast_natCast] at h1Q h2Q
  obtain ⟨a, b⟩ := f64Div_bounds (Duration.Hours d) (f64OfInt (cv : ℤ)) cv 14 22 k
    (round64_den_pos _) (f64OfInt_den_pos _) hval hcv0 hcv
    (le_trans h1Q hb.1) (by linarith [hb.2])
    (by
      have : (k + 1) * 2 ^ (14 + 22) ≤ 131072 * 2 ^ (14 + 22) :=
        Nat.mul_le_mul_right _ (by omega)
      exact le_trans this (by norm_num))
    (by norm_num)
  exact f64ToInt_of_bounds _ (f64Div_den_pos _ _) k a b

/-- For a non-negative int64 duration whose part below the second is at most
999 ms, the number printed in each branch is the whole quotient of the
nanoseconds by the unit. -/
theorem ageNumber_of_subsecond (d : ℤ) (hd0 : 0 ≤ d) (hsub : d % 1000000000 ≤ 999000000)
    (hhi : d ≤ 9223372036854775807) :
    ageNumber AgeUnit.years d = d / 31536000000000000 ∧
    ageNumber AgeUnit.months d = d / 2592000000000000 ∧
    ageNumber AgeUnit.days d = d / 86400000000000 ∧
    ageNumber AgeUnit.hours d = d / 3600000000000 ∧
    ageNumber AgeUnit.minutes d = d / 60000000000 ∧
    ageNumber AgeUnit.seconds d = d / 1000000000 := by
  have hH := Duration.inUnits_bounds 3600000000000 d 22 (by norm_num) (by norm_num) hd0
    (by norm_num) (by norm_num; omega) (by norm_num; omega)
  have hM := Duration.inUnits_bounds 60000000000 d 16 (by norm_num) (by norm_num) hd0
    (by norm_num) (by norm_num; omega) (by norm_num; omega)
  have hS := Duration.inUnits_bounds 1000000000 d 10 (by norm_num) (by norm_num) hd0
    (by norm_num) (by norm_num; omega) (by norm_num; omega)
  rw [← Hour_eq, ← Duration.Hours_eq] at hH
  rw [← Minute_eq, ← Duration.Minutes_eq] at hM
  rw [← Second_eq, ← Duration.Seconds_eq] at hS
  rw [Hour_eq] at hH
  rw [Minute_eq] at hM
  rw [Second_eq] at hS
  have toNat_cast : ∀ z : ℤ, 0 ≤ z → ((z.toNat : ℕ) : ℤ) = z := fun z hz => Int.toNat_of_nonneg hz
  have lastStep : ∀ (x : Frac) (z : ℤ), 0 < x.den → 0 ≤ z → ((z : ℤ) : ℚ) ≤ x.val →
      x.val ≤ ((z : ℤ) : ℚ) + 1 - 1 / (2 : ℚ) ^ ((22 : ℕ) : ℤ) ∨
      x.val ≤ ((z : ℤ) : ℚ) + 1 - 1 / (2 : ℚ) ^ ((16 : ℕ) : ℤ) ∨
      x.val ≤ ((z : ℤ) : ℚ) + 1 - 1 / (2 : ℚ) ^ ((10 : ℕ) : ℤ) →
      f64ToInt x = z := by
    intro x z hx hz lo up
    have e := toNat_cast z hz
    have eQ : ((z.toNat : ℕ) : ℚ) = ((z : ℤ) : ℚ) := by
      calc ((z.toNat : ℕ) : ℚ) = (((z.toNat : ℕ) : ℤ) : ℚ) := (Int.cast_natCast _).symm
        _ = ((z : ℤ) : ℚ) := by rw [e]
    have := f64ToInt_of_bounds x hx z.toNat (by rw [eQ]; exact lo) (by
      rw [eQ]
      have p22 : (0 : ℚ) < 1 / (2 : ℚ) ^ ((22 : ℕ) : ℤ) := by positivity
      have p16 : (0 : ℚ) < 1 / (2 : ℚ) ^ ((16 : ℕ) : ℤ) := by positivity
      have p10 : (0 : ℚ) < 1 / (2 : ℚ) ^ ((10 : ℕ) : ℤ) := by positivity
      rcases up with u | u | u <;> linarith)
    rw [this, e]
  have quot : ∀ (cv : ℕ) (U : ℤ), 0 < cv → cv ≤ 2 ^ 14 → 0 ≤ d / U → d / U ≤ 131071 →
      (d / U) * (cv : ℤ) ≤ d / 3600000000000 →
      d / 3600000000000 + 1 ≤ (d / U + 1) * (cv : ℤ) →
      f64ToInt (f64Div (Duration.Hours d) (f64OfInt (cv : ℤ))) = d / U := by
    intro cv U h0 h14 hq0 hq1 h1 h2
    have e := toNat_cast _ hq0
    have := hoursQuotient_number d cv (d / U).toNat h0 h14 (by omega) hH
      (by rw [e]; exact h1) (by rw [e]; exact h2)
    rw [this, e]
  refine ⟨?_, ?_, ?_, ?_, ?_, ?_⟩
  · exact quot 8760 31536000000000000 (by norm_num) (by norm_num) (by omega) (by omega)
      (by omega) (by omega)
  · exact quot 720 2592000000000000 (by norm_num) (by norm_num) (by omega) (by omega)
      (by omega) (by omega)
  · exact quot 24 86400000000000 (by norm_num) (by norm_num) (by omega) (by omega)
      (by omega) (by omega)
  · exact lastStep _ _ (round64_den_pos _) (by omega) hH.1 (Or.inl hH.2)
  · exact lastStep _ _ (round64_den_pos _) (by omega) hM.1 (Or.inr (Or.inl hM.2))
  · exact lastStep _ _ (round64_den_pos _) (by omega) hS.1 (Or.inr (Or.inr hS.2))

/-- On every non-negative elapsed duration whose part below the second is zero
or lies between 4 ns and 999 ms, `getAge` prints what the integer rule of the
specification prints: the float64 rounding of `Duration.Hours` is felt only
within nanoseconds of a multiple of a unit. -/
theorem getAge_eq_specAge_of_subsecond (now creationTime : Time)
    (h0 : 0 ≤ Since now creationTime)
    (hsub : Since now creationTime % 1000000000 = 0 ∨
      (4 ≤ Since now creationTime % 1000000000 ∧
        Since now creationTime % 1000000000 ≤ 999000000)) :
    getAge now creationTime = specAge (Since now creationTime) := by
  obtain ⟨hlo, hhi⟩ := Since_range now creationTime
  rw [getAge_eq, ageUnit_eq _ hlo hhi]
  obtain ⟨d, hd⟩ : ∃ d : ℤ, d = Since now creationTime := ⟨_, rfl⟩
  have h0' : (0 : ℤ) ≤ d := by rw [hd]; exact h0
  have hsub' : d % 1000000000 = 0 ∨ (4 ≤ d % 1000000000 ∧ d % 1000000000 ≤ 999000000) := by
    rw [hd]; exact hsub
  rw [← hd] at hlo hhi ⊢
  have hhi' : d ≤ 9223372036854775807 := by rw [← maxDuration_eq]; exact hhi
  obtain ⟨ny, nmo, nd, nh, nm, ns⟩ := ageNumber_of_subsecond d h0' (by omega) hhi'
  have uy : (365 * (24 * Hour) : ℤ) = 31536000000000000 := by rw [Hour_eq]; norm_num
  have umo : (30 * (24 * Hour) : ℤ) = 2592000000000000 := by rw [Hour_eq]; norm_num
  have ud : (24 * Hour : ℤ) = 86400000000000 := by rw [Hour_eq]; norm_num
  have ty : (365 * 24 * Hour + 4 : ℤ) = 31536000000000004 := by rw [Hour_eq]; norm_num
  have tmo : (30 * 24 * Hour + 1 : ℤ) = 2592000000000001 := by rw [Hour_eq]; norm_num
  have td : (24 * Hour + 1 : ℤ) = 86400000000001 := by rw [Hour_eq]; norm_num
  have th : (Hour + 1 : ℤ) = 3600000000001 := by rw [Hour_eq]; norm_num
  have tm : (Minute + 1 : ℤ) = 60000000001 := by rw [Minute_eq]; norm_num
  unfold specAge
  rw [ty, tmo, td, th, tm, uy, umo, ud, Hour_eq, Minute_eq, Second_eq]
  by_cases c1 : (31536000000000000 : ℤ) < d
  · rw [if_pos (show (31536000000000004 : ℤ) ≤ d by omega), if_pos c1, ny]; rfl
  rw [if_neg (show ¬ (31536000000000004 : ℤ) ≤ d by omega), if_neg c1]
  by_cases c2 : (2592000000000000 : ℤ) < d
  · rw [if_pos (show (2592000000000001 : ℤ) ≤ d by omega), if_pos c2, nmo]; rfl
  rw [if_neg (show ¬ (2592000000000001 : ℤ) ≤ d by omega), if_neg c2]
  by_cases c3 : (86400000000000 : ℤ) < d
  · rw [if_pos (show (86400000000001 : ℤ) ≤ d by omega), if_pos c3, nd]; rfl
  rw [if_neg (show ¬ (86400000000001 : ℤ) ≤ d by omega), if_neg c3]
  by_cases c4 : (3600000000000 : ℤ) < d
  · rw [if_pos (show (3600000000001 : ℤ) ≤ d by omega), if_pos c4, nh]; rfl
  rw [if_neg (show ¬ (3600000000001 : ℤ) ≤ d by omega), if_neg c4]
  by_cases c5 : (60000000000 : ℤ) < d
  · rw [if_pos (show (60000000001 : ℤ) ≤ d by omega), if_pos c5, nm]; rfl
  rw [if_neg (show ¬ (60000000001 : ℤ) ≤ d by omega), if_neg c5, ns]; rfl

/-- On every non-negative elapsed duration of whole milliseconds `getAge`
prints what the integer rule of the specification prints. -/
theorem getAge_eq_specAge_of_whole_ms (now creationTime : Time) (m : Nat)
    (h : Since now creationTime = (m : ℤ) * 1000000) :
    getAge now creationTime = specAge (Since now creationTime) := by
  obtain ⟨d, hd⟩ : ∃ d : ℤ, d = Since now creationTime := ⟨_, rfl⟩
  have h' : d = (m : ℤ) * 1000000 := hd.trans h
  have a : (0 : ℤ) ≤ d := by omega
  have b : d % 1000000000 = 0 ∨ (4 ≤ d % 1000000000 ∧ d % 1000000000 ≤ 999000000) := by
    omega
  rw [hd] at a b
  exact getAge_eq_specAge_of_subsecond now creationTime a b

theorem getAge_eq_specAge_of_whole_ms_witness :
    getAge (45 * 24 * Hour + 1500 * 1000000) 0
      = specAge (Since (45 * 24 * Hour + 1500 * 1000000) 0) :=
  getAge_eq_specAge_of_whole_ms (45 * 24 * Hour + 1500 * 1000000) 0 3888001500 (by decide)

/-! ## Proofs: getAge at concrete durations -/

/-- The six durations of `TestGetAge`, taken exactly. -/
theorem getAge_test_table :
    getAge (30 * Second) 0 = "30s" ∧ getAge (5 * Minute) 0 = "5m" ∧
    getAge (3 * Hour) 0 = "3h" ∧ getAge (2 * 24 * Hour) 0 = "2d" ∧
    getAge (45 * 24 * Hour) 0 = "1mo" ∧ getAge (400 * 24 * Hour) 0 = "1y" := by
  decide

/-- C5 (the code departs from it): one nanosecond past 365 days the elapsed
duration exceeds 365 days, yet `Duration.Hours` is the float64 8760 exactly,
the year test fails and `getAge` prints `"12mo"`, not `"1y"`; one nanosecond
short of 360 days it prints `"12mo"`, not `"11mo"`. -/
theorem getAge_year_threshold_plus_1ns :
    Since (365 * 24 * Hour + 1) 0 = 365 * 24 * Hour + 1 ∧
    Duration.Hours (365 * 24 * Hour + 1) = Duration.Hours (365 * 24 * Hour) ∧
    getAge (365 * 24 * Hour + 1) 0 = "12mo" ∧
    getAge (360 * 24 * Hour - 1) 0 = "12mo" := by
  decide

/-- The age string depends on the clock reading and the creation time through
the elapsed duration only. -/
theorem getAge_congr (now1 c1 now2 c2 : Time) (h : Since now1 c1 = Since now2 c2) :
    getAge now1 c1 = getAge now2 c2 := by
  unfold getAge
  rw [h]

/-- An elapsed duration in the int64 range is what `time.Since` returns. -/
theorem Since_of_sub (now creationTime : Time) (e : Duration) (h : now - creationTime = e)
    (hlo : minDuration ≤ e) (hhi : e ≤ maxDuration) :
    Since now creationTime = Since e 0 := by
  have h1 : ¬ e < minDuration := not_lt.mpr hlo
  have h2 : ¬ maxDuration < e := not_lt.mpr hhi
  unfold Since Time.Sub
  rw [h, sub_zero, if_neg h1, if_neg h2]

/-- The age strings at the five thresholds, with the creation time at zero. -/
theorem getAge_thresholds_from_zero :
    getAge (24 * Hour) 0 = "24h" ∧ getAge Minute 0 = "60s" ∧
    getAge Hour 0 = "60m" ∧ getAge (30 * 24 * Hour) 0 = "30d" ∧
    getAge (365 * 24 * Hour) 0 = "12mo" := by
  decide

/-- C6: for every clock reading and creation time, an elapsed duration equal to
a threshold is printed in the next smaller unit: exactly 24 hours is `"24h"`,
exactly one minute `"60s"`, exactly one hour `"60m"`, exactly 30 days `"30d"`
and exactly 365 days `"12mo"`; every test of `getAge` is a strict `>`. -/
theorem getAge_at_thresholds (now creationTime : Time) :
    (now - creationTime = 24 * Hour → getAge now creationTime = "24h") ∧
    (now - creationTime = Minute → getAge now creationTime = "60s") ∧
    (now - creationTime = Hour → getAge now creationTime = "60m") ∧
    (now - creationTime = 30 * 24 * Hour → getAge now creationTime = "30d") ∧
    (now - creationTime = 365 * 24 * Hour → getAge now creationTime = "12mo") := by
  obtain ⟨v1, v2, v3, v4, v5⟩ := getAge_thresholds_from_zero
  refine ⟨?_, ?_, ?_, ?_, ?_⟩
  · intro h
    rw [getAge_congr _ _ _ _ (Since_of_sub now creationTime _ h (by decide) (by decide)), v1]
  · intro h
    rw [getAge_congr _ _ _ _ (Since_of_sub now creationTime _ h (by decide) (by decide)), v2]
  · intro h
    rw [getAge_congr _ _ _ _ (Since_of_sub now creationTime _ h (by decide) (by decide)), v3]
  · intro h
    rw [getAge_congr _ _ _ _ (Since_of_sub now creationTime _ h (by decide) (by decide)), v4]
  · intro h
    rw [getAge_congr _ _ _ _ (Since_of_sub now creationTime _ h (by decide) (by decide)), v5]

theorem getAge_at_thresholds_witness :
    (946684800000000000 : Time) - 946598400000000000 = 24 * Hour ∧
    getAge 946684800000000000 946598400000000000 = "24h" ∧
    (946684800000000000 : Time) - 915148800000000000 = 365 * 24 * Hour ∧
    getAge 946684800000000000 915148800000000000 = "12mo" :=
  ⟨by decide,
    (getAge_at_thresholds 946684800000000000 946598400000000000).1 (by decide),
    by decide,
    (getAge_at_thresholds 946684800000000000 915148800000000000).2.2.2.2 (by decide)⟩

/-- C7 (the code departs from it): one nanosecond short of two 365-day years
`getAge` prints `"2y"`, a magnitude whose two years exceed the elapsed
duration: the float64 sum in `Duration.Hours` rounds up to 17520. -/
theorem getAge_rounds_up_below_two_years :
    Since (2 * 365 * 24 * Hour - 1) 0 = 2 * 365 * 24 * Hour - 1 ∧
    getAge (2 * 365 * 24 * Hour - 1) 0 = "2y" ∧
    ¬ (2 * (365 * 24 * Hour) ≤ 2 * 365 * 24 * Hour - 1) := by
  decide

/-! ## Proofs: getAge is monotone within a unit -/

/-- C8: for two elapsed durations `e1 < e2` whose ages are printed with the
same unit suffix, the number printed for `e1` is at most the number printed
for `e2`. -/
theorem getAge_monotone_within_unit (now1 c1 now2 c2 : Time) (n1 n2 : Int) (u : String)
    (hu : u ∈ ["s", "m", "h", "d", "mo", "y"])
    (hlt : Since now1 c1 < Since now2 c2)
    (h1 : getAge now1 c1 = formatInt n1 ++ u)
    (h2 : getAge now2 c2 = formatInt n2 ++ u) : n1 ≤ n2 := by
  rw [getAge_eq] at h1 h2
  obtain ⟨a1, b1⟩ := printed_age_unique _ _ _ _ (AgeUnit.suffix_mem _) hu h1
  obtain ⟨a2, b2⟩ := printed_age_unique _ _ _ _ (AgeUnit.suffix_mem _) hu h2
  have hunit : ageUnit (Since now1 c1) = ageUnit (Since now2 c2) :=
    AgeUnit.suffix_injective _ _ (b1.trans b2.symm)
  rw [← a1, ← a2, hunit]
  exact ageNumber_mono _ _ _ (Since_range now1 c1).1 (le_of_lt hlt) (Since_range now2 c2).2

theorem getAge_monotone_within_unit_witness :
    Since (90 * Second) 0 < Since (150 * Second) 0 ∧
    getAge (90 * Second) 0 = formatInt 1 ++ "m" ∧
    getAge (150 * Second) 0 = formatInt 2 ++ "m" ∧ (1 : Int) ≤ 2 :=
  ⟨by decide, by decide, by decide,
    getAge_monotone_within_unit (90 * Second) 0 (150 * Second) 0 1 2 "m"
      (by decide) (by decide) (by decide) (by decide)⟩

end Lister
